import Mathlib

/-!
Shallow embedding of `src/rss_processor.py` (class `LiteratureProcessor`):
an RSS ingestion pipeline that fetches feed entries, classifies them against
previously stored rows (NEW / DOI-UPDATE / UNCHANGED), enriches NEW entries
through LLM calls, and persists the result into a keyed store.

Modelling conventions:
* Python strings are Lean `String`s; character-level regex work happens on
  `List Char` (`String.data`).  Python's `\s` class and `str.strip()` are
  modelled on the ASCII whitespace characters.
* The OpenAI chat endpoint is an oracle `chat : String → String → Option String`
  (system prompt, user message ↦ response); `none` models a raised exception.
* The embeddings endpoint is an oracle `List String → Option (List Vec)`;
  `none` models a raised exception.  Embedding vectors are opaque payloads.
* The Supabase table `rss_entries` is a list of rows; `select ... eq eq`,
  `update`, and `insert` are filter / map-in-place / append.  Per-entry and
  per-source exceptions are modelled with explicit fault flags and `Except`.
-/

namespace RssProcessor

/-! ## Python-style text primitives -/

/-- ASCII part of Python's `\s` character class (also used by `str.strip()`). -/
def isPySpace (c : Char) : Bool :=
  c == ' ' || c == '\t' || c == '\n' || c == '\r' || c == '\x0b' || c == '\x0c'

/-- Drop leading whitespace, then trailing whitespace: Python `str.strip()`
on the character list. -/
def trimChars (l : List Char) : List Char :=
  ((l.dropWhile isPySpace).reverse.dropWhile isPySpace).reverse

/-- Python `str.strip()`. -/
def pyStrip (s : String) : String :=
  ⟨trimChars s.data⟩

/-- Does `l` begin with the pattern `p`? -/
def listStartsWith : List Char → List Char → Bool
  | [], _ => true
  | _ :: _, [] => false
  | p :: ps, c :: cs => p == c && listStartsWith ps cs

/-- Does `l` contain the pattern `p` as a contiguous substring? -/
def listContains (p : List Char) : List Char → Bool
  | [] => listStartsWith p []
  | c :: cs => listStartsWith p (c :: cs) || listContains p cs

/-- Does the text begin with one of the two markers of the first regex in
`preprocess_content`, i.e. does the lookahead `(?=ABSTRACT|OBJECTIVES)`
succeed at this position? -/
def markerAt (l : List Char) : Bool :=
  listStartsWith "ABSTRACT".data l || listStartsWith "OBJECTIVES".data l

/-- The suffix of the text starting at the first position where `markerAt`
holds, if any. -/
def findMarkerSuffix : List Char → Option (List Char)
  | [] => none
  | c :: cs => if markerAt (c :: cs) then some (c :: cs) else findMarkerSuffix cs

/-- `re.sub(r'^.*?(?=ABSTRACT|OBJECTIVES)', '', text, flags=re.DOTALL)`:
delete everything before the first occurrence of a marker; if no marker
occurs the text is unchanged.  CPython subtlety, checked against `re`: when
the text already starts with a marker the first match is zero-width, and the
engine retries at position 0 demanding a non-empty match, so the text is cut
to the second marker occurrence if one exists (else left unchanged). -/
def stripBeforeMarker (l : List Char) : List Char :=
  match l with
  | [] => []
  | c :: cs =>
    if markerAt (c :: cs) then
      match findMarkerSuffix cs with
      | some suf => suf
      | none => c :: cs
    else (findMarkerSuffix (c :: cs)).getD (c :: cs)

/-- Does the text begin with `PMID:` at this position? -/
def pmidAt (l : List Char) : Bool :=
  listStartsWith "PMID:".data l

/-- The prefix of the text strictly before the first occurrence of `PMID:`,
if any occurrence exists. -/
def stripFromPmid : List Char → Option (List Char)
  | [] => none
  | c :: cs =>
    if pmidAt (c :: cs) then some []
    else
      match stripFromPmid cs with
      | some pre => some (c :: pre)
      | none => none

/-- Drop the maximal run of trailing whitespace (the `\s*` that the second
regex of `preprocess_content` absorbs before `PMID:`). -/
def dropTrailingWs (l : List Char) : List Char :=
  (l.reverse.dropWhile isPySpace).reverse

/-- `re.sub(r'\s*PMID:.*$', '', text, flags=re.DOTALL)`: delete from the
first occurrence of `PMID:` (together with directly preceding whitespace)
through the end of the text; if `PMID:` does not occur the text is
unchanged. -/
def stripPmidTail (l : List Char) : List Char :=
  match stripFromPmid l with
  | some pre => dropTrailingWs pre
  | none => l

/-- `LiteratureProcessor.preprocess_content`: apply the marker regex, then
the PMID regex, then `str.strip()`. -/
def preprocess_content (text : String) : String :=
  pyStrip ⟨stripPmidTail (stripBeforeMarker text.data)⟩

/-! ## Enrichment functions (LLM calls)

Each chat completion is one oracle call `chat system user`.  The
`..._user_msg` definitions record exactly the text each function places in
its user message, i.e. what is sent to the LLM provider. -/

/-- System prompt of `translate_title`. -/
def translateTitleSystemPrompt (targetLanguage : String) : String :=
  "You are a translator specializing in academic article titles. Translate the following title to "
    ++ targetLanguage
    ++ ". Ensure the translation is concise and accurate, maintaining any technical terms. Use Traditional Chinese (Taiwan) and avoid using Simplified Chinese."

/-- The user-message content `translate_title` sends to the LLM: the raw
title, with no preprocessing. -/
def translate_title_user_msg (text : String) : String := text

/-- `LiteratureProcessor.translate_title`: ask the LLM for a translation and
strip it; on an API exception return the original input unchanged. -/
def translate_title (chat : String → String → Option String) (text : String)
    (targetLanguage : String := "zh-TW") : String :=
  match chat (translateTitleSystemPrompt targetLanguage) (translate_title_user_msg text) with
  | some r => pyStrip r
  | none => text

/-- System prompt of `generate_english_tldr` (abbreviated body; its content
is never inspected). -/
def englishTldrPrompt : String :=
  "You are an expert in academic research summarization. Create an extremely concise TL;DR summary of the following academic abstract."

/-- The user-message content `generate_english_tldr` sends to the LLM: the
preprocessed text. -/
def generate_english_tldr_user_msg (text : String) : String :=
  preprocess_content text

/-- `LiteratureProcessor.generate_english_tldr`: preprocess, ask the LLM,
strip; on an API exception return the documented fallback. -/
def generate_english_tldr (chat : String → String → Option String) (text : String) : String :=
  match chat englishTldrPrompt (generate_english_tldr_user_msg text) with
  | some r => pyStrip r
  | none => "Unable to generate English summary."

/-- System prompt of `translate_tldr_to_chinese` (abbreviated body). -/
def chineseTldrPrompt : String :=
  "你是專業的學術內容編輯，專門為網頁閱讀體驗優化學術摘要。請將以下英文學術摘要翻譯成適合網頁瀏覽的繁體中文。"

/-- `LiteratureProcessor.translate_tldr_to_chinese`: translate the English
TL;DR; on an API exception return the documented fallback. -/
def translate_tldr_to_chinese (chat : String → String → Option String)
    (english_tldr : String) : String :=
  match chat chineseTldrPrompt english_tldr with
  | some r => pyStrip r
  | none => "無法翻譯摘要"

/-- `LiteratureProcessor.generate_tldr`: two-step summary (English, then
Chinese).  Its own `except` branch is unreachable because both steps already
catch their exceptions. -/
def generate_tldr (chat : String → String → Option String) (text : String) :
    String × String :=
  let english_tldr := generate_english_tldr chat text
  let chinese_tldr := translate_tldr_to_chinese chat english_tldr
  (english_tldr, chinese_tldr)

/-! ## Data model -/

/-- Opaque embedding-vector payload (the claims only distinguish null from
non-null vectors). -/
abbrev Vec := List Int

/-- A working entry dict: a fetched feed candidate, possibly enriched, or a
stored row loaded back into dict form.  Absent dict keys are modelled by the
defaults that the code's `entry.get(key, default)` accesses produce. -/
structure Entry where
  title : String := ""
  link : String := ""
  published : String := ""
  full_content : String := ""
  pmid : Option String := none
  doi : Option String := none
  title_translated : String := ""
  english_tldr : String := ""
  chinese_tldr : String := ""
  embedding_text : String := ""
  embedding : Option Vec := none
deriving DecidableEq, Repr, Inhabited

/-- A stored row of the `rss_entries` table, with the columns written by
`save_rss_data`. -/
structure Row where
  source : String := ""
  title : String := ""
  title_translated : String := ""
  link : String := ""
  published : String := ""
  tldr : String := ""
  english_tldr : String := ""
  pmid : Option String := none
  doi : Option String := none
  embedding : Option Vec := none
  embedding_text : String := ""
  embedding_strategy : Option String := none
  likes_count : Int := 0
deriving DecidableEq, Repr, Inhabited

/-- A stored row viewed as the dict that `load_existing_data_for_source`
hands to the classification loop (keys absent from the row dict, such as
`chinese_tldr` and `full_content`, read back as their `get` defaults). -/
def rowToEntry (r : Row) : Entry :=
  { title := r.title
    link := r.link
    published := r.published
    full_content := ""
    pmid := r.pmid
    doi := r.doi
    title_translated := r.title_translated
    english_tldr := r.english_tldr
    chinese_tldr := ""
    embedding_text := r.embedding_text
    embedding := r.embedding }

/-- The remote table: a list of rows (duplicates representable, so the
uniqueness invariant is a provable property rather than a modelling
assumption). -/
abbrev Store := List Row

/-- The filter `.eq("source", s).eq("pmid", p)` used by `save_rss_data`. -/
def matchesKey (s : String) (p : Option String) (r : Row) : Bool :=
  decide (r.source = s ∧ r.pmid = p)

/-- `select * ... eq source eq pmid`. -/
def selectKey (st : Store) (s : String) (p : Option String) : List Row :=
  st.filter (matchesKey s p)

/-- `LiteratureProcessor.load_existing_data_for_source`:
`select * ... eq source`. -/
def load_existing_data_for_source (st : Store) (s : String) : List Row :=
  st.filter (fun r => decide (r.source = s))

/-! ## Configuration, oracles and faults -/

/-- The processor configuration set in `__init__` (`enable_embeddings = True`,
`embedding_strategy = "hybrid"`); kept abstract because the code reads the
attributes at every use site. -/
structure Config where
  enable_embeddings : Bool := true
  embedding_strategy : String := "hybrid"

/-- External world: the LLM endpoints, the feed reader, and fault-injection
flags for the store operations.  `none` / `error` / `true` model a raised
exception at the corresponding call site. -/
structure World where
  chat : String → String → Option String
  embedApi : List String → Option (List Vec)
  fetch : String → Except Unit (List Entry)
  loadFails : String → Bool
  saveFails : String → Option String → Bool

/-! ## Persistence: `save_rss_data` -/

/-- The partial update payload applied to an existing row: always `doi`;
additionally the enrichment fields `english_tldr`, `embedding`,
`embedding_text`, `embedding_strategy` when the entry carries a non-null
embedding. -/
def updateRow (strategy : String) (e : Entry) (r : Row) : Row :=
  let r1 := { r with doi := e.doi }
  match e.embedding with
  | some v =>
    { r1 with
      english_tldr := e.english_tldr
      embedding := some v
      embedding_text := e.embedding_text
      embedding_strategy := some strategy }
  | none => r1

/-- The full row inserted for a new entry. -/
def insertRow (strategy : String) (s : String) (e : Entry) : Row :=
  { source := s
    title := e.title
    title_translated := e.title_translated
    link := e.link
    published := e.published
    tldr := e.chinese_tldr
    english_tldr := e.english_tldr
    pmid := e.pmid
    doi := e.doi
    embedding := e.embedding
    embedding_text := e.embedding_text
    embedding_strategy := if e.embedding.isSome then some strategy else none
    likes_count := 0 }

/-- One iteration of the `save_rss_data` loop: select by `(source, pmid)`;
update every matching row if any exists, otherwise insert.  The per-entry
`try/except` is modelled by `saveFails`: a failing entry leaves the store
untouched and processing continues with the next entry. -/
def saveEntry (w : World) (strategy s : String) (st : Store) (e : Entry) : Store :=
  if w.saveFails s e.pmid then st
  else if (selectKey st s e.pmid).isEmpty then st ++ [insertRow strategy s e]
  else st.map (fun r => if matchesKey s e.pmid r then updateRow strategy e r else r)

/-- `LiteratureProcessor.save_rss_data`. -/
def save_rss_data (w : World) (strategy s : String) (entries : List Entry)
    (st : Store) : Store :=
  entries.foldl (saveEntry w strategy s) st

/-! ## Embedding preparation and generation -/

/-- `" | ".join(components)`. -/
def joinComponents (components : List String) : String :=
  String.intercalate " | " components

/-- `LiteratureProcessor.prepare_embedding_text`.  Python's truthiness test
`if article.get(key):` keeps a component exactly when the field is a
non-empty string. -/
def prepare_embedding_text (article : Entry) (strategy : String := "hybrid") : String :=
  if strategy = "summary_only" then
    joinComponents
      ((if article.title ≠ "" then ["Title: " ++ article.title] else []) ++
       (if article.title_translated ≠ "" then ["中文標題: " ++ article.title_translated] else []) ++
       (if article.english_tldr ≠ "" then ["Summary: " ++ article.english_tldr] else []) ++
       (if article.chinese_tldr ≠ "" then ["中文摘要: " ++ article.chinese_tldr] else []))
  else if strategy = "original_only" then
    let preprocessed := preprocess_content article.full_content
    let content :=
      if preprocessed.length > 6000 then preprocessed.take 6000 ++ "..." else preprocessed
    "Title: " ++ article.title ++ " | Content: " ++ content
  else
    joinComponents
      ((if article.title ≠ "" then ["Title: " ++ article.title] else []) ++
       (if article.title_translated ≠ "" then ["中文標題: " ++ article.title_translated] else []) ++
       (if article.full_content ≠ "" then
          let preprocessed := preprocess_content article.full_content
          let excerpt :=
            preprocessed.take 1500 ++ (if preprocessed.length > 1500 then "..." else "")
          ["Original: " ++ excerpt]
        else []) ++
       (if article.english_tldr ≠ "" then ["Summary: " ++ article.english_tldr] else []) ++
       (if article.chinese_tldr ≠ "" then ["中文摘要: " ++ article.chinese_tldr] else []))

/-- `LiteratureProcessor.generate_embeddings`.  First component: the vector
(or `none`) for each input text.  Second component: the argument lists of the
embeddings-API invocations actually performed (the code has a single call
site, reached only when embeddings are enabled and the input is non-empty);
an API exception yields a same-length list of `none`. -/
def generate_embeddings (enable : Bool) (api : List String → Option (List Vec))
    (text_list : List String) : List (Option Vec) × List (List String) :=
  if !enable || text_list.isEmpty then
    (List.replicate text_list.length none, [])
  else
    match api text_list with
    | some embs => (embs.map some, [text_list])
    | none => (List.replicate text_list.length none, [text_list])

/-! ## The reconciliation loop (`process_rss_sources`) -/

/-- The in-memory dict `existing_pmids` (pmid ↦ loaded entry), plus the two
batches the classification loop accumulates.  Python mutates the dict's
values in place and appends aliased references to `updated_entries`; the
model keys the appended references (`updatedKeys`) and resolves them against
the final dict state, which is observationally identical. -/
structure ClassState where
  existing : List (Option String × Entry)
  newEntries : List Entry
  updatedKeys : List (Option String)
deriving DecidableEq, Repr

/-- Dict lookup (`pmid in existing_pmids` / `existing_pmids[pmid]`). -/
def alistGet (k : Option String) : List (Option String × Entry) → Option Entry
  | [] => none
  | (k', v) :: rest => if k' = k then some v else alistGet k rest

/-- Dict write: replace the binding if the key is present, otherwise append. -/
def alistSet (k : Option String) (v : Entry) :
    List (Option String × Entry) → List (Option String × Entry)
  | [] => [(k, v)]
  | (k', v') :: rest =>
    if k' = k then (k, v) :: rest else (k', v') :: alistSet k v rest

/-- `existing_pmids = {entry['pmid']: entry for entry in existing_entries}`
(every loaded row dict has a `pmid` key; later rows overwrite earlier ones
with the same pmid). -/
def buildMap (rows : List Row) : List (Option String × Entry) :=
  rows.foldl (fun m r => alistSet r.pmid (rowToEntry r) m) []

/-- The enrichment applied to a candidate classified NEW: translated title
and two-step TL;DR. -/
def enrichOne (chat : String → String → Option String) (e : Entry) : Entry :=
  let tldrs := generate_tldr chat e.full_content
  { e with
    title_translated := translate_title chat e.title
    english_tldr := tldrs.1
    chinese_tldr := tldrs.2 }

/-- One iteration of the classification loop in `process_rss_sources`:
pmid absent ⇒ NEW (enrich and queue for insert); pmid present and stored
`doi != entry['doi']` ⇒ DOI-UPDATE (mutate dict value in place, queue the
reference); otherwise UNCHANGED (no-op). -/
def classifyStep (chat : String → String → Option String)
    (st : ClassState) (e : Entry) : ClassState :=
  match alistGet e.pmid st.existing with
  | none =>
    { st with newEntries := st.newEntries ++ [enrichOne chat e] }
  | some ex =>
    if ex.doi ≠ e.doi then
      { st with
        existing := alistSet e.pmid { ex with doi := e.doi } st.existing
        updatedKeys := st.updatedKeys ++ [e.pmid] }
    else st

/-- `for i, embedding in enumerate(embeddings): new_entries[i]['embedding'] = embedding`.
If the API response is longer than the entry list the Python loop raises
`IndexError` (caught by the per-source handler); otherwise entries beyond the
response length keep no `embedding` key. -/
def assignEmbeddings (entries : List Entry) (embs : List (Option Vec)) :
    Except Unit (List Entry) :=
  if entries.length < embs.length then Except.error ()
  else
    Except.ok
      (List.zipWith (fun e emb => { e with embedding := emb }) entries embs ++
        entries.drop embs.length)

/-- The batch-embedding block of `process_rss_sources`
(`if new_entries and self.enable_embeddings:`): set `embedding_text` on every
new entry, call `generate_embeddings` once over all of them, and attach the
resulting vectors.  Also returns the embeddings-API call trace. -/
def embedPhase (cfg : Config) (api : List String → Option (List Vec))
    (newEntries : List Entry) : Except Unit (List Entry × List (List String)) :=
  if newEntries.isEmpty || !cfg.enable_embeddings then Except.ok (newEntries, [])
  else
    let withTexts := newEntries.map
      (fun e => { e with embedding_text := prepare_embedding_text e cfg.embedding_strategy })
    let texts := withTexts.map (fun e => e.embedding_text)
    let res := generate_embeddings cfg.enable_embeddings api texts
    match assignEmbeddings withTexts res.1 with
    | Except.error u => Except.error u
    | Except.ok es => Except.ok (es, res.2)

/-- What one source's iteration of `process_rss_sources` produced: the store
afterwards, the printed counts `len(new_entries)` / `len(updated_entries)`,
and the embeddings-API call trace. -/
structure SourceResult where
  store : Store
  numNew : Nat
  numUpdated : Nat
  embedCalls : List (List String)
deriving DecidableEq, Repr

/-- The classification pass of one source: build the pmid dict from the
freshly loaded rows and fold the classification step over the fetched
candidates. -/
def classOut (w : World) (st : Store) (name : String) (feed : List Entry) :
    ClassState :=
  feed.foldl (classifyStep w.chat)
    ⟨buildMap (load_existing_data_for_source st name), [], []⟩

/-- The `updated_entries` list as it stands at save time: each queued
reference resolved against the final (mutated) dict state. -/
def resolvedUpdates (c : ClassState) : List Entry :=
  c.updatedKeys.map (fun k => (alistGet k c.existing).getD default)

/-- The body of one source's iteration after the feed has been fetched and
`load_existing_data_for_source` has succeeded: classify, batch-embed the new
entries, and save `new_entries + updated_entries` (skipping the save when
both are empty). -/
def processSourceCore (w : World) (cfg : Config) (st : Store) (name : String)
    (feed : List Entry) : Except Unit SourceResult :=
  match embedPhase cfg w.embedApi (classOut w st name feed).newEntries with
  | Except.error u => Except.error u
  | Except.ok (newE, calls) =>
    Except.ok
      ⟨if (newE ++ resolvedUpdates (classOut w st name feed)).isEmpty then st
        else save_rss_data w cfg.embedding_strategy name
          (newE ++ resolvedUpdates (classOut w st name feed)) st,
       (classOut w st name feed).newEntries.length,
       (classOut w st name feed).updatedKeys.length, calls⟩

/-- One source's iteration of `process_rss_sources`, including the failure
points inside the per-source `try`: feed fetch and store load. -/
def processSource (w : World) (cfg : Config) (st : Store) (name url : String) :
    Except Unit SourceResult :=
  match w.fetch url with
  | Except.error u => Except.error u
  | Except.ok feed =>
    if w.loadFails name then Except.error ()
    else processSourceCore w cfg st name feed

/-- `LiteratureProcessor.process_rss_sources`: iterate over the configured
sources; a per-source exception is caught (`except ... continue`), leaving
the store as it was before that source. -/
def process_rss_sources (w : World) (cfg : Config)
    (sources : List (String × String)) (st : Store) : Store :=
  sources.foldl
    (fun st nu =>
      match processSource w cfg st nu.1 nu.2 with
      | Except.ok r => r.store
      | Except.error _ => st)
    st

/-! ## Derived notions used to state the verified properties -/

/-- The `existing` dict after one iteration of the classification loop
(the batches aside): mutated at `e.pmid` exactly when a DOI-UPDATE fires. -/
def stepMap (m : List (Option String × Entry)) (e : Entry) :
    List (Option String × Entry) :=
  match alistGet e.pmid m with
  | none => m
  | some ex => if ex.doi ≠ e.doi then alistSet e.pmid { ex with doi := e.doi } m else m

/-- Is the candidate classified NEW against dict `m`? -/
def isNewCand (m : List (Option String × Entry)) (e : Entry) : Bool :=
  (alistGet e.pmid m).isNone

/-- Does the candidate fire a DOI-UPDATE against dict `m`
(`existing_entry.get('doi') != entry['doi']`)? -/
def needUpd (m : List (Option String × Entry)) (e : Entry) : Bool :=
  match alistGet e.pmid m with
  | some ex => decide (ex.doi ≠ e.doi)
  | none => false

/-- Last element of a list, as a total recursive function. -/
def lastElem {α : Type} : List α → Option α
  | [] => none
  | x :: xs =>
    match lastElem xs with
    | some y => some y
    | none => some x

/-- The last row of the list whose `pmid` equals `p` — the binding that the
dict comprehension `{entry['pmid']: entry for ...}` retains. -/
def lastRow (p : Option String) : List Row → Option Row
  | [] => none
  | r :: rs =>
    match lastRow p rs with
    | some r' => some r'
    | none => if r.pmid = p then some r else none

/-- Well-formedness of the pmid dict: every binding's value carries the
binding's key as its `pmid`. -/
def MapWF (m : List (Option String × Entry)) : Prop :=
  ∀ k v, alistGet k m = some v → v.pmid = k

/-- The uniqueness invariant of the store: at most one row per
`(source, pmid)` pair. -/
def UniqueKeys (st : Store) : Prop :=
  st.Pairwise (fun r r' => ¬(r.source = r'.source ∧ r.pmid = r'.pmid))

/-- The stored fields an update payload never contains, hence never
clobbers: `r'` agrees with `r` on all of them. -/
def FramePreserved (r r' : Row) : Prop :=
  r'.source = r.source ∧ r'.title = r.title ∧
  r'.title_translated = r.title_translated ∧ r'.link = r.link ∧
  r'.published = r.published ∧ r'.tldr = r.tldr ∧
  r'.pmid = r.pmid ∧ r'.likes_count = r.likes_count

/-- Startup inputs of `main`: the `OPENAI_API_KEY` environment variable and
the parsed `rss_sources.json` (`none` = missing / invalid). -/
structure Startup where
  openai_api_key : Option String
  rss_sources : Option (List (String × String))

/-- `main`: a missing API key raises `ValueError` (caught, exit 1); a
missing or malformed sources file exits 1; otherwise `process_rss_sources`
runs to completion — it catches every per-source exception — and the process
exits 0.  Returns (exit code, final store). -/
def runMain (w : World) (cfg : Config) (su : Startup) (st : Store) : Nat × Store :=
  match su.openai_api_key with
  | none => (1, st)
  | some _ =>
    match su.rss_sources with
    | none => (1, st)
    | some sources => (0, process_rss_sources w cfg sources st)

/-! ## Concrete data for closed instances -/

/-- An LLM oracle whose every call raises. -/
def chatNone : String → String → Option String := fun _ _ => none

/-- An embeddings oracle returning one unit vector per input. -/
def embConst : List String → Option (List Vec) := fun ts => some (ts.map (fun _ => [1]))

/-- An embeddings oracle whose call raises. -/
def embFail : List String → Option (List Vec) := fun _ => none

/-- A fault-free world fetching a fixed feed, with all LLM calls failing. -/
def mkWorld (feed : List Entry) : World :=
  { chat := chatNone
    embedApi := embConst
    fetch := fun _ => Except.ok feed
    loadFails := fun _ => false
    saveFails := fun _ _ => false }

/-- Candidate with pmid 111. -/
def entry111 : Entry :=
  { title := "T1", link := "L1", published := "P1", full_content := "A",
    pmid := some "111", doi := some "d1" }

/-- Candidate with pmid 222 and no doi. -/
def entry222 : Entry :=
  { title := "T2", link := "L2", published := "P2", full_content := "B",
    pmid := some "222", doi := none }

/-- First candidate of the duplicated-pmid feed. -/
def dupA : Entry := { title := "T1", pmid := some "1", doi := some "a" }

/-- Second candidate of the duplicated-pmid feed, same pmid, other doi. -/
def dupB : Entry := { title := "T2", pmid := some "1", doi := some "b" }

/-- A stored entry holding a non-null doi. -/
def storedX : Entry := { title := "S", pmid := some "111", doi := some "10.1/x" }

/-- A candidate sharing pmid 111 whose doi is null. -/
def candNullDoi : Entry := { title := "C", pmid := some "111", doi := none }

/-- A world where fetching the url "bad" raises and every other fetch
returns a one-entry feed. -/
def wFail : World :=
  { chat := chatNone
    embedApi := embConst
    fetch := fun url => if url = "bad" then Except.error () else Except.ok [entry111]
    loadFails := fun _ => false
    saveFails := fun _ _ => false }

end RssProcessor

namespace RssProcessor

/-! ## Lemmas: text processing -/

theorem listStartsWith_append {p l : List Char} (v : List Char)
    (h : listStartsWith p l = true) : listStartsWith p (l ++ v) = true := by
  induction p generalizing l with
  | nil => simp [listStartsWith]
  | cons a ps ih =>
    cases l with
    | nil => simp [listStartsWith] at h
    | cons c cs =>
      simp only [listStartsWith, Bool.and_eq_true] at h
      simp only [List.cons_append, listStartsWith, Bool.and_eq_true]
      exact ⟨h.1, ih h.2⟩

theorem listContains_append_right {pat m : List Char} (u : List Char)
    (h : listContains pat m = true) : listContains pat (u ++ m) = true := by
  induction u with
  | nil => simpa using h
  | cons c cs ih =>
    simp only [List.cons_append, listContains, Bool.or_eq_true]
    exact Or.inr ih

theorem listContains_nil_pat (l : List Char) :
    listContains ([] : List Char) l = true := by
  cases l <;> simp [listContains, listStartsWith]

theorem listStartsWith_nil {p : List Char} (h : listStartsWith p [] = true) :
    p = [] := by
  cases p with
  | nil => rfl
  | cons a ps => simp [listStartsWith] at h

theorem listContains_append_left {pat m : List Char} (v : List Char)
    (h : listContains pat m = true) : listContains pat (m ++ v) = true := by
  induction m with
  | nil =>
    simp only [listContains] at h
    rw [listStartsWith_nil h]
    exact listContains_nil_pat v
  | cons c cs ih =>
    simp only [listContains, Bool.or_eq_true] at h
    simp only [List.cons_append, listContains, Bool.or_eq_true]
    cases h with
    | inl h => exact Or.inl (listStartsWith_append v h)
    | inr h => exact Or.inr (ih h)

/-- Substring occurrence is preserved by embedding into a larger text. -/
theorem listContains_mono {pat x : List Char} (u v : List Char)
    (h : listContains pat x = true) : listContains pat (u ++ x ++ v) = true := by
  rw [List.append_assoc]
  exact listContains_append_right u (listContains_append_left v h)

/-- `dropWhile` only removes a prefix. -/
theorem exists_append_dropWhile (p : Char → Bool) (l : List Char) :
    ∃ u, l = u ++ l.dropWhile p := by
  induction l with
  | nil => exact ⟨[], rfl⟩
  | cons c cs ih =>
    by_cases hc : p c = true
    · obtain ⟨u, hu⟩ := ih
      exact ⟨c :: u, by simp [List.dropWhile_cons, hc]; exact hu⟩
    · exact ⟨[], by simp [List.dropWhile_cons, hc]⟩

/-- `dropTrailingWs` only removes a suffix. -/
theorem exists_dropTrailingWs_append (l : List Char) :
    ∃ u, l = dropTrailingWs l ++ u := by
  obtain ⟨u, hu⟩ := exists_append_dropWhile isPySpace l.reverse
  refine ⟨u.reverse, ?_⟩
  have := congrArg List.reverse hu
  simpa [dropTrailingWs] using this

theorem trimChars_eq (l : List Char) :
    trimChars l = dropTrailingWs (l.dropWhile isPySpace) := rfl

/-- The trimmed text is an infix of the original. -/
theorem exists_trimChars_decomp (l : List Char) :
    ∃ u v, l = u ++ trimChars l ++ v := by
  obtain ⟨u, hu⟩ := exists_append_dropWhile isPySpace l
  obtain ⟨v, hv⟩ := exists_dropTrailingWs_append (l.dropWhile isPySpace)
  refine ⟨u, v, ?_⟩
  rw [trimChars_eq, List.append_assoc, ← hv]
  exact hu

/-- When `stripFromPmid` returns a prefix, that prefix is everything strictly
before the first `PMID:` occurrence: the remainder starts with `PMID:`, no
occurrence starts earlier, and the prefix itself is occurrence-free. -/
theorem stripFromPmid_spec {l pre : List Char} (h : stripFromPmid l = some pre) :
    (∃ rest, l = pre ++ rest ∧ pmidAt rest = true) ∧
    (∀ j, j < pre.length → pmidAt (l.drop j) = false) ∧
    listContains "PMID:".data pre = false := by
  induction l generalizing pre with
  | nil => simp [stripFromPmid] at h
  | cons c cs ih =>
    cases hp : pmidAt (c :: cs) with
    | true =>
      simp only [stripFromPmid, hp, if_true, Option.some.injEq] at h
      subst h
      refine ⟨⟨c :: cs, rfl, hp⟩, ?_, by decide⟩
      intro j hj
      simp at hj
    | false =>
      cases hsp : stripFromPmid cs with
      | none => simp [stripFromPmid, hp, hsp] at h
      | some pre' =>
        simp [stripFromPmid, hp, hsp] at h
        subst h
        obtain ⟨⟨rest, hdec, hrest⟩, hmin, hnc⟩ := ih hsp
        refine ⟨⟨rest, by rw [hdec]; rfl, hrest⟩, ?_, ?_⟩
        · intro j hj
          cases j with
          | zero => simpa using hp
          | succ j' =>
            simp only [List.drop_succ_cons]
            exact hmin j' (by simpa using hj)
        · rw [Bool.eq_false_iff]
          intro hcon
          simp only [listContains, Bool.or_eq_true] at hcon
          rcases hcon with hs | hc
          · have h2 : pmidAt ((c :: pre') ++ rest) = true := listStartsWith_append rest hs
            rw [List.cons_append, ← hdec] at h2
            rw [hp] at h2
            exact Bool.false_ne_true h2
          · rw [hnc] at hc
            exact Bool.false_ne_true hc

/-- `stripFromPmid` fails exactly when the text has no `PMID:` occurrence. -/
theorem stripFromPmid_eq_none {l : List Char} :
    stripFromPmid l = none ↔ listContains "PMID:".data l = false := by
  induction l with
  | nil => simp [stripFromPmid, listContains]; decide
  | cons c cs ih =>
    cases hp : pmidAt (c :: cs) with
    | true =>
      simp only [stripFromPmid, hp, if_true]
      have hc : listContains "PMID:".data (c :: cs) = true := by
        simp only [listContains, Bool.or_eq_true]
        exact Or.inl hp
      simp [hc]
    | false =>
      simp only [listContains]
      have hps : listStartsWith "PMID:".data (c :: cs) = false := hp
      simp only [hps, Bool.false_or]
      rw [← ih]
      cases hsp : stripFromPmid cs with
      | none => simp [stripFromPmid, hp, hsp]
      | some pre' => simp [stripFromPmid, hp, hsp]

/-- No occurrence of either marker means the marker lookahead never fires. -/
theorem findMarkerSuffix_eq_none {l : List Char}
    (hA : listContains "ABSTRACT".data l = false)
    (hO : listContains "OBJECTIVES".data l = false) :
    findMarkerSuffix l = none := by
  induction l with
  | nil => rfl
  | cons c cs ih =>
    simp only [listContains] at hA hO
    rw [Bool.or_eq_false_iff] at hA hO
    have hm : markerAt (c :: cs) = false := by
      simp only [markerAt, hA.1, hO.1, Bool.or_false]
    simp only [findMarkerSuffix, hm]
    simp only [Bool.false_eq_true, if_false]
    exact ih hA.2 hO.2

/-- The marker lookahead only ever returns a non-empty suffix. -/
theorem findMarkerSuffix_ne_nil {l suf : List Char}
    (h : findMarkerSuffix l = some suf) : suf ≠ [] := by
  induction l with
  | nil => simp [findMarkerSuffix] at h
  | cons c cs ih =>
    cases hm : markerAt (c :: cs) with
    | true =>
      simp only [findMarkerSuffix, hm, if_true, Option.some.injEq] at h
      rw [← h]
      simp
    | false =>
      simp only [findMarkerSuffix, hm] at h
      simp only [Bool.false_eq_true, if_false] at h
      exact ih h

theorem dropWhile_dropWhile (p : Char → Bool) (l : List Char) :
    (l.dropWhile p).dropWhile p = l.dropWhile p := by
  induction l with
  | nil => rfl
  | cons c cs ih =>
    cases hc : p c with
    | true => simp only [List.dropWhile_cons, hc, if_true]; exact ih
    | false => simp [List.dropWhile_cons, hc]

theorem dropTrailingWs_idem (l : List Char) :
    dropTrailingWs (dropTrailingWs l) = dropTrailingWs l := by
  simp only [dropTrailingWs, List.reverse_reverse]
  rw [dropWhile_dropWhile]

theorem length_dropWhile_le (p : Char → Bool) (l : List Char) :
    (l.dropWhile p).length ≤ l.length := by
  induction l with
  | nil => simp
  | cons c cs ih =>
    cases hc : p c with
    | true =>
      simp only [List.dropWhile_cons, hc, if_true, List.length_cons]
      omega
    | false => simp [List.dropWhile_cons, hc]

theorem dropWhile_cons_eq_self {p : Char → Bool} {c : Char} {t : List Char}
    (h : List.dropWhile p (c :: t) = c :: t) : p c = false := by
  cases hc : p c with
  | false => rfl
  | true =>
    rw [List.dropWhile_cons, if_pos hc] at h
    have hlen := congrArg List.length h
    have hle := length_dropWhile_le p t
    simp only [List.length_cons] at hlen
    omega

theorem dropWhile_dtw_eq_self {x : List Char}
    (h : x.dropWhile isPySpace = x) :
    (dropTrailingWs x).dropWhile isPySpace = dropTrailingWs x := by
  obtain ⟨u, hu⟩ := exists_dropTrailingWs_append x
  cases hdtw : dropTrailingWs x with
  | nil => rfl
  | cons c t =>
    rw [hdtw] at hu
    rw [List.cons_append] at hu
    rw [hu] at h
    have hc : isPySpace c = false := dropWhile_cons_eq_self h
    rw [List.dropWhile_cons, hc]
    simp

/-- `str.strip()` is idempotent on character lists. -/
theorem trimChars_idem (l : List Char) : trimChars (trimChars l) = trimChars l := by
  rw [trimChars_eq l, trimChars_eq]
  rw [dropWhile_dtw_eq_self (dropWhile_dropWhile _ _), dropTrailingWs_idem]

/-- `str.strip()` is idempotent. -/
theorem pyStrip_idem (s : String) : pyStrip (pyStrip s) = pyStrip s := by
  simp only [pyStrip]
  exact congrArg String.mk (trimChars_idem s.data)

/-- The PMID regex leaves no `PMID:` occurrence behind. -/
theorem listContains_stripPmidTail (l : List Char) :
    listContains "PMID:".data (stripPmidTail l) = false := by
  cases hsp : stripFromPmid l with
  | none =>
    simp only [stripPmidTail, hsp]
    exact stripFromPmid_eq_none.mp hsp
  | some pre =>
    simp only [stripPmidTail, hsp]
    obtain ⟨_, _, hnc⟩ := stripFromPmid_spec hsp
    rw [Bool.eq_false_iff]
    intro hcon
    obtain ⟨u, hu⟩ := exists_dropTrailingWs_append pre
    have h2 : listContains "PMID:".data pre = true := by
      rw [hu]
      exact listContains_append_left u hcon
    rw [hnc] at h2
    exact Bool.false_ne_true h2

/-- Trimming cannot create a substring occurrence. -/
theorem listContains_trimChars_false {pat l : List Char}
    (h : listContains pat l = false) :
    listContains pat (trimChars l) = false := by
  rw [Bool.eq_false_iff]
  intro hcon
  obtain ⟨u, v, huv⟩ := exists_trimChars_decomp l
  have h2 : listContains pat l = true := by
    rw [huv]
    exact listContains_mono u v hcon
  rw [h] at h2
  exact Bool.false_ne_true h2

/-- The preprocessed content never contains a `PMID:` record-identifier. -/
theorem preprocess_no_pmid (text : String) :
    listContains "PMID:".data (preprocess_content text).data = false := by
  show listContains _ (trimChars (stripPmidTail (stripBeforeMarker text.data))) = false
  exact listContains_trimChars_false (listContains_stripPmidTail _)

/-- C10: (i) a text containing neither "ABSTRACT" nor "OBJECTIVES" loses
nothing to the marker rule (in particular the marker rule never empties a
non-empty text); (ii) a text containing "PMID:" loses everything from the
first occurrence (plus directly preceding whitespace) through the end, not
merely a final-line suffix; (iii) the preprocessed result is
whitespace-trimmed at both ends (stripping it again changes nothing). -/
theorem C10_preprocess_edge_cases :
    (∀ l : List Char, listContains "ABSTRACT".data l = false →
        listContains "OBJECTIVES".data l = false → stripBeforeMarker l = l) ∧
    (∀ l : List Char, l ≠ [] → stripBeforeMarker l ≠ []) ∧
    (∀ l : List Char, listContains "PMID:".data l = true →
        ∃ pre rest, l = pre ++ rest ∧ pmidAt rest = true ∧
          (∀ j, j < pre.length → pmidAt (l.drop j) = false) ∧
          stripPmidTail l = dropTrailingWs pre) ∧
    (∀ text : String, pyStrip (preprocess_content text) = preprocess_content text) := by
  refine ⟨?_, ?_, ?_, ?_⟩
  · intro l hA hO
    cases l with
    | nil => rfl
    | cons c cs =>
      have hm : markerAt (c :: cs) = false := by
        simp only [listContains] at hA hO
        rw [Bool.or_eq_false_iff] at hA hO
        simp only [markerAt, hA.1, hO.1, Bool.or_false]
      simp only [stripBeforeMarker, hm]
      simp only [Bool.false_eq_true, if_false]
      rw [findMarkerSuffix_eq_none hA hO]
      rfl
  · intro l hne
    cases l with
    | nil => exact absurd rfl hne
    | cons c cs =>
      cases hm : markerAt (c :: cs) with
      | true =>
        simp only [stripBeforeMarker, hm, if_true]
        cases hf : findMarkerSuffix cs with
        | none => simp
        | some suf => exact findMarkerSuffix_ne_nil hf
      | false =>
        simp only [stripBeforeMarker, hm]
        simp only [Bool.false_eq_true, if_false]
        cases hf : findMarkerSuffix (c :: cs) with
        | none => simp
        | some suf =>
          simp only [Option.getD_some]
          exact findMarkerSuffix_ne_nil hf
  · intro l hc
    cases hsp : stripFromPmid l with
    | none =>
      rw [stripFromPmid_eq_none.mp hsp] at hc
      exact absurd hc Bool.false_ne_true
    | some pre =>
      obtain ⟨⟨rest, hdec, hrest⟩, hmin, _⟩ := stripFromPmid_spec hsp
      exact ⟨pre, rest, hdec, hrest, hmin, by simp [stripPmidTail, hsp]⟩
  · intro text
    exact pyStrip_idem _

/-- C10 witness: concrete inputs discharging the hypotheses of the three
conditional conjuncts. -/
theorem C10_preprocess_edge_cases_witness :
    stripBeforeMarker "hello there".data = "hello there".data ∧
    stripBeforeMarker "x".data ≠ [] ∧
    (∃ pre rest, "ab PMID: 7x".data = pre ++ rest ∧ pmidAt rest = true ∧
      (∀ j, j < pre.length → pmidAt ("ab PMID: 7x".data.drop j) = false) ∧
      stripPmidTail "ab PMID: 7x".data = dropTrailingWs pre) :=
  ⟨C10_preprocess_edge_cases.1 _ (by decide) (by decide),
   C10_preprocess_edge_cases.2.1 _ (by decide),
   C10_preprocess_edge_cases.2.2.1 _ (by decide)⟩

/-- C9 (amended): summarization does preprocess its raw input before sending
it to the LLM — its user message is exactly the preprocessed text, and in
particular carries no `PMID:` record-identifier; embedding-text preparation
routes the raw article body through the preprocessor in both the
`original_only` strategy and the `hybrid` strategy (the latter being the
default strategy selected when none is supplied, as in the processor's
constructor); but title translation sends the raw title unchanged, without
preprocessing. -/
theorem C9_amended_preprocessing :
    (∀ text : String, generate_english_tldr_user_msg text = preprocess_content text ∧
        listContains "PMID:".data (generate_english_tldr_user_msg text).data = false) ∧
    (∀ e : Entry, prepare_embedding_text e "original_only" =
        "Title: " ++ e.title ++ " | Content: " ++
          (if (preprocess_content e.full_content).length > 6000 then
            (preprocess_content e.full_content).take 6000 ++ "..."
          else preprocess_content e.full_content)) ∧
    (∀ e : Entry, prepare_embedding_text e "hybrid" =
        joinComponents
          ((if e.title ≠ "" then ["Title: " ++ e.title] else []) ++
           (if e.title_translated ≠ "" then ["中文標題: " ++ e.title_translated] else []) ++
           (if e.full_content ≠ "" then
              ["Original: " ++ ((preprocess_content e.full_content).take 1500 ++
                (if (preprocess_content e.full_content).length > 1500 then "..." else ""))]
            else []) ++
           (if e.english_tldr ≠ "" then ["Summary: " ++ e.english_tldr] else []) ++
           (if e.chinese_tldr ≠ "" then ["中文摘要: " ++ e.chinese_tldr] else []))) ∧
    (∀ e : Entry, prepare_embedding_text e = prepare_embedding_text e "hybrid") ∧
    (∀ text : String, translate_title_user_msg text = text) :=
  ⟨fun text => ⟨rfl, preprocess_no_pmid text⟩, fun _ => rfl, fun _ => rfl,
   fun _ => rfl, fun _ => rfl⟩

/-- C9 counterexample: the claim says every enrichment function preprocesses
its text before the LLM call, but the user message `translate_title` sends
is the raw title, which differs from the preprocessed text on this input. -/
theorem C9_counterexample :
    translate_title_user_msg "Intro. ABSTRACT Results. PMID: 1" =
      "Intro. ABSTRACT Results. PMID: 1" ∧
    preprocess_content "Intro. ABSTRACT Results. PMID: 1" = "ABSTRACT Results." ∧
    translate_title_user_msg "Intro. ABSTRACT Results. PMID: 1" ≠
      preprocess_content "Intro. ABSTRACT Results. PMID: 1" :=
  ⟨rfl, by decide, by decide⟩

/-! ## Lemmas: the pmid dict -/

theorem alistGet_alistSet (k p : Option String) (v : Entry)
    (m : List (Option String × Entry)) :
    alistGet p (alistSet k v m) = if k = p then some v else alistGet p m := by
  induction m with
  | nil => simp [alistSet, alistGet]
  | cons kv rest ih =>
    obtain ⟨k', v'⟩ := kv
    by_cases hk : k' = k
    · subst hk
      simp only [alistSet, if_pos rfl, alistGet]
      by_cases hp : k' = p
      · simp [hp]
      · simp [hp]
    · simp only [alistSet, if_neg hk, alistGet]
      by_cases hp : k' = p
      · have hkp : ¬ k = p := fun h => hk (hp.trans h.symm)
        simp [hp, hkp]
      · simp [hp, ih]

theorem alistGet_stepMap_other {m : List (Option String × Entry)} {e : Entry}
    {p : Option String} (h : p ≠ e.pmid) :
    alistGet p (stepMap m e) = alistGet p m := by
  cases hget : alistGet e.pmid m with
  | none => simp [stepMap, hget]
  | some ex =>
    by_cases hd : ex.doi ≠ e.doi
    · simp only [stepMap, hget]
      rw [if_pos hd, alistGet_alistSet, if_neg (Ne.symm h)]
    · simp only [stepMap, hget]
      rw [if_neg hd]

theorem alistGet_stepMap_self {m : List (Option String × Entry)} {e ex : Entry}
    (h : alistGet e.pmid m = some ex) :
    alistGet e.pmid (stepMap m e) =
      some (if ex.doi ≠ e.doi then { ex with doi := e.doi } else ex) := by
  by_cases hd : ex.doi ≠ e.doi
  · simp only [stepMap, h]
    rw [if_pos hd, if_pos hd, alistGet_alistSet, if_pos rfl]
  · simp only [stepMap, h]
    rw [if_neg hd, if_neg hd, h]

theorem stepMap_isSome (m : List (Option String × Entry)) (e : Entry)
    (p : Option String) :
    (alistGet p (stepMap m e)).isSome = (alistGet p m).isSome := by
  by_cases hp : p = e.pmid
  · subst hp
    cases hget : alistGet e.pmid m with
    | none => simp [stepMap, hget]
    | some ex => rw [alistGet_stepMap_self hget]; simp
  · rw [alistGet_stepMap_other hp]

/-! ## Lemmas: one classification step -/

theorem classifyStep_existing (chat : String → String → Option String)
    (st : ClassState) (e : Entry) :
    (classifyStep chat st e).existing = stepMap st.existing e := by
  unfold classifyStep stepMap
  cases alistGet e.pmid st.existing with
  | none => rfl
  | some ex =>
    by_cases hd : ex.doi ≠ e.doi
    · simp only [if_pos hd]
    · simp only [if_neg hd]

theorem classifyStep_of_isNone {chat : String → String → Option String}
    {st : ClassState} {e : Entry} (h : alistGet e.pmid st.existing = none) :
    classifyStep chat st e =
      { st with newEntries := st.newEntries ++ [enrichOne chat e] } := by
  unfold classifyStep
  rw [h]

theorem classifyStep_of_update {chat : String → String → Option String}
    {st : ClassState} {e ex : Entry} (h : alistGet e.pmid st.existing = some ex)
    (hne : ex.doi ≠ e.doi) :
    classifyStep chat st e =
      { st with
        existing := alistSet e.pmid { ex with doi := e.doi } st.existing
        updatedKeys := st.updatedKeys ++ [e.pmid] } := by
  simp [classifyStep, h, hne]

theorem classifyStep_of_unchanged {chat : String → String → Option String}
    {st : ClassState} {e ex : Entry} (h : alistGet e.pmid st.existing = some ex)
    (heq : ex.doi = e.doi) :
    classifyStep chat st e = st := by
  simp [classifyStep, h, heq]

/-- C2 (amended): for a candidate whose pmid is present in the dict, the
code fires a DOI-UPDATE if and only if the candidate's doi differs from the
stored doi under plain inequality — including the case of a null candidate
doi against a non-null stored doi, which overwrites the stored doi with
null.  When it fires, exactly one update is queued for that candidate, the
mutated record's doi equals the candidate's doi, and no insert is queued;
when the dois are equal the candidate is a no-op. -/
theorem C2_amended_doi_update_condition :
    ∀ (chat : String → String → Option String) (st : ClassState) (e ex : Entry),
      alistGet e.pmid st.existing = some ex →
      (ex.doi ≠ e.doi →
        (classifyStep chat st e).updatedKeys = st.updatedKeys ++ [e.pmid] ∧
        alistGet e.pmid (classifyStep chat st e).existing =
          some { ex with doi := e.doi } ∧
        (classifyStep chat st e).newEntries = st.newEntries) ∧
      (ex.doi = e.doi → classifyStep chat st e = st) := by
  intro chat st e ex h
  constructor
  · intro hne
    rw [classifyStep_of_update h hne]
    refine ⟨rfl, ?_, rfl⟩
    simp [alistGet_alistSet]
  · intro heq
    exact classifyStep_of_unchanged h heq

/-- C2 witness: a present pmid with differing dois queues exactly one
update; with equal dois nothing happens. -/
theorem C2_amended_doi_update_condition_witness :
    (classifyStep chatNone ⟨[(some "111", storedX)], [], []⟩ entry111).updatedKeys =
      [some "111"] ∧
    classifyStep chatNone ⟨[(some "111", entry111)], [], []⟩ entry111 =
      ⟨[(some "111", entry111)], [], []⟩ :=
  ⟨((C2_amended_doi_update_condition chatNone ⟨[(some "111", storedX)], [], []⟩
      entry111 storedX (by decide)).1 (by decide)).1,
   (C2_amended_doi_update_condition chatNone ⟨[(some "111", entry111)], [], []⟩
      entry111 entry111 (by decide)).2 (by decide)⟩

/-- C2 counterexample: the claim says a candidate with a null doi is always
UNCHANGED, but against a stored non-null doi the code queues an update and
overwrites the stored doi with null. -/
theorem C2_counterexample :
    candNullDoi.doi = none ∧
    (classifyStep chatNone ⟨[(some "111", storedX)], [], []⟩ candNullDoi).updatedKeys =
      [some "111"] ∧
    alistGet (some "111")
        (classifyStep chatNone ⟨[(some "111", storedX)], [], []⟩ candNullDoi).existing =
      some { storedX with doi := none } := by
  refine ⟨rfl, ?_, ?_⟩ <;> decide

/-- C6: each enrichment function catches its own API failure at its
boundary and substitutes the documented fallback — `translate_title` returns
its input unchanged, the two summarization steps return fixed placeholder
texts — and a NEW candidate all of whose enrichment calls fail is still
classified NEW and queued for insertion carrying exactly those fallback
values. -/
theorem C6_enrichment_failure_containment :
    (∀ (chat : String → String → Option String) (text tl : String),
      chat (translateTitleSystemPrompt tl) (translate_title_user_msg text) = none →
        translate_title chat text tl = text) ∧
    (∀ (chat : String → String → Option String) (text : String),
      chat englishTldrPrompt (generate_english_tldr_user_msg text) = none →
        generate_english_tldr chat text = "Unable to generate English summary.") ∧
    (∀ (chat : String → String → Option String) (etl : String),
      chat chineseTldrPrompt etl = none →
        translate_tldr_to_chinese chat etl = "無法翻譯摘要") ∧
    (∀ (chat : String → String → Option String), (∀ a b, chat a b = none) →
      ∀ text : String,
        generate_tldr chat text =
          ("Unable to generate English summary.", "無法翻譯摘要")) ∧
    (∀ (chat : String → String → Option String), (∀ a b, chat a b = none) →
      ∀ (st : ClassState) (e : Entry), alistGet e.pmid st.existing = none →
        (classifyStep chat st e).newEntries = st.newEntries ++ [enrichOne chat e] ∧
        enrichOne chat e =
          { e with
            title_translated := e.title
            english_tldr := "Unable to generate English summary."
            chinese_tldr := "無法翻譯摘要" } ∧
        (∀ strategy s : String,
          (insertRow strategy s (enrichOne chat e)).title_translated = e.title ∧
          (insertRow strategy s (enrichOne chat e)).english_tldr =
            "Unable to generate English summary." ∧
          (insertRow strategy s (enrichOne chat e)).tldr = "無法翻譯摘要")) := by
  have htt : ∀ (chat : String → String → Option String) (text tl : String),
      chat (translateTitleSystemPrompt tl) (translate_title_user_msg text) = none →
        translate_title chat text tl = text := by
    intro chat text tl h
    unfold translate_title
    rw [h]
  have hge : ∀ (chat : String → String → Option String) (text : String),
      chat englishTldrPrompt (generate_english_tldr_user_msg text) = none →
        generate_english_tldr chat text = "Unable to generate English summary." := by
    intro chat text h
    unfold generate_english_tldr
    rw [h]
  have htc : ∀ (chat : String → String → Option String) (etl : String),
      chat chineseTldrPrompt etl = none →
        translate_tldr_to_chinese chat etl = "無法翻譯摘要" := by
    intro chat etl h
    unfold translate_tldr_to_chinese
    rw [h]
  have hgt : ∀ (chat : String → String → Option String), (∀ a b, chat a b = none) →
      ∀ text : String,
        generate_tldr chat text =
          ("Unable to generate English summary.", "無法翻譯摘要") := by
    intro chat hall text
    show (generate_english_tldr chat text,
      translate_tldr_to_chinese chat (generate_english_tldr chat text)) = _
    rw [hge chat text (hall _ _), htc chat _ (hall _ _)]
  refine ⟨htt, hge, htc, hgt, ?_⟩
  intro chat hall st e hget
  have henr : enrichOne chat e =
      { e with
        title_translated := e.title
        english_tldr := "Unable to generate English summary."
        chinese_tldr := "無法翻譯摘要" } := by
    unfold enrichOne
    rw [hgt chat hall, htt chat e.title "zh-TW" (hall _ _)]
  refine ⟨?_, henr, ?_⟩
  · rw [classifyStep_of_isNone hget]
  · intro strategy s
    rw [henr]
    exact ⟨rfl, rfl, rfl⟩

/-- C6 witness: with every LLM call failing, the enrichment of a concrete
NEW candidate still goes through with the documented fallbacks. -/
theorem C6_enrichment_failure_containment_witness :
    translate_title chatNone "Some Title" = "Some Title" ∧
    generate_tldr chatNone "Body text" =
      ("Unable to generate English summary.", "無法翻譯摘要") ∧
    (classifyStep chatNone ⟨[], [], []⟩ entry111).newEntries =
      [enrichOne chatNone entry111] :=
  ⟨C6_enrichment_failure_containment.1 chatNone "Some Title" "zh-TW" rfl,
   C6_enrichment_failure_containment.2.2.2.1 chatNone (fun _ _ => rfl) "Body text",
   ((C6_enrichment_failure_containment.2.2.2.2 chatNone (fun _ _ => rfl)
      ⟨[], [], []⟩ entry111 rfl).1)⟩

/-! ## Lemmas: persistence -/

theorem FramePreserved_refl (r : Row) : FramePreserved r r :=
  ⟨rfl, rfl, rfl, rfl, rfl, rfl, rfl, rfl⟩

/-- The update payload never touches source, title, title_translated, link,
published, tldr, pmid or likes_count. -/
theorem frame_updateRow (strategy : String) (e : Entry) (r : Row) :
    FramePreserved r (updateRow strategy e r) := by
  cases he : e.embedding <;> simp [updateRow, he, FramePreserved]

theorem updateRow_doi (strategy : String) (e : Entry) (r : Row) :
    (updateRow strategy e r).doi = e.doi := by
  cases he : e.embedding <;> simp [updateRow, he]

theorem updateRow_source (strategy : String) (e : Entry) (r : Row) :
    (updateRow strategy e r).source = r.source :=
  (frame_updateRow strategy e r).1

theorem updateRow_pmid (strategy : String) (e : Entry) (r : Row) :
    (updateRow strategy e r).pmid = r.pmid :=
  (frame_updateRow strategy e r).2.2.2.2.2.2.1

theorem forall2_frame_map (f : Row → Row) (h : ∀ r, FramePreserved r (f r)) :
    ∀ st : Store, List.Forall₂ FramePreserved st (st.map f)
  | [] => List.Forall₂.nil
  | r :: rs => List.Forall₂.cons (h r) (forall2_frame_map f h rs)

/-- C8: the update payload applied to a stored row contains only `doi`
(plus, when the entry carries an embedding, the enrichment fields); all
other stored fields — title, title_translated, link, published, tldr, pmid,
likes_count (and source) — are never written, so `saveEntry` leaves them
intact on every pre-existing row, and with no embedding the update writes
exactly the `doi` field. -/
theorem C8_update_frame :
    (∀ (strategy : String) (e : Entry) (r : Row),
      FramePreserved r (updateRow strategy e r)) ∧
    (∀ (strategy : String) (e : Entry) (r : Row),
      (updateRow strategy e r).doi = e.doi) ∧
    (∀ (strategy : String) (e : Entry) (r : Row),
      updateRow strategy { e with embedding := none } r = { r with doi := e.doi }) ∧
    (∀ (w : World) (strategy s : String) (st : Store) (e : Entry),
      List.Forall₂ FramePreserved st ((saveEntry w strategy s st e).take st.length)) := by
  refine ⟨frame_updateRow, updateRow_doi, fun strategy e r => rfl, ?_⟩
  intro w strategy s st e
  unfold saveEntry
  by_cases hf : w.saveFails s e.pmid
  · rw [if_pos hf, List.take_length]
    exact (List.forall₂_same).mpr (fun r _ => FramePreserved_refl r)
  · rw [if_neg hf]
    by_cases hemp : (selectKey st s e.pmid).isEmpty
    · rw [if_pos hemp, List.take_left]
      exact (List.forall₂_same).mpr (fun r _ => FramePreserved_refl r)
    · rw [if_neg hemp]
      have hlen : (st.map (fun r =>
          if matchesKey s e.pmid r then updateRow strategy e r else r)).length =
          st.length := List.length_map _ _
      rw [← hlen, List.take_length]
      refine forall2_frame_map _ ?_ st
      intro r
      by_cases hm : matchesKey s e.pmid r
      · rw [if_pos hm]
        exact frame_updateRow strategy e r
      · rw [if_neg hm]
        exact FramePreserved_refl r

/-- C4: a candidate whose pmid is absent from the existing mapping is
classified NEW: the step appends exactly that candidate, enriched by title
translation and the two-step summarization (pmid and doi untouched), to the
insert batch, leaving the update batch and the dict alone.  Concretely, a
source with zero existing rows whose fetch returns two candidates with
distinct pmids produces 2 inserts, 0 updates and exit code 0. -/
theorem C4_new_classification :
    (∀ (chat : String → String → Option String) (st : ClassState) (e : Entry),
      alistGet e.pmid st.existing = none →
        classifyStep chat st e =
          { st with newEntries := st.newEntries ++ [enrichOne chat e] } ∧
        (enrichOne chat e).title_translated = translate_title chat e.title ∧
        (enrichOne chat e).english_tldr = (generate_tldr chat e.full_content).1 ∧
        (enrichOne chat e).chinese_tldr = (generate_tldr chat e.full_content).2 ∧
        (enrichOne chat e).pmid = e.pmid ∧
        (enrichOne chat e).doi = e.doi) ∧
    ((processSource (mkWorld [entry111, entry222]) {} [] "PubMed-X" "u").map
        (fun r => (r.numNew, r.numUpdated, r.store.length))).toOption =
      some (2, 0, 2) ∧
    (runMain (mkWorld [entry111, entry222]) {}
        ⟨some "key", some [("PubMed-X", "u")]⟩ []).1 = 0 := by
  refine ⟨?_, by decide, by decide⟩
  intro chat st e h
  exact ⟨classifyStep_of_isNone h, rfl, rfl, rfl, rfl, rfl⟩

/-- C4 witness: the NEW-classification conjunct applied to a concrete
candidate against an empty dict. -/
theorem C4_new_classification_witness :
    classifyStep chatNone ⟨[], [], []⟩ entry111 =
      { existing := [], newEntries := [enrichOne chatNone entry111],
        updatedKeys := [] } ∧
    (enrichOne chatNone entry111).pmid = some "111" := by
  have h := C4_new_classification.1 chatNone ⟨[], [], []⟩ entry111 rfl
  exact ⟨h.1, h.2.2.2.2.1⟩

/-! ## Lemmas: batch embeddings -/

theorem assignEmbeddings_length {entries out : List Entry} {embs : List (Option Vec)}
    (h : assignEmbeddings entries embs = Except.ok out) :
    out.length = entries.length := by
  unfold assignEmbeddings at h
  by_cases hlt : entries.length < embs.length
  · rw [if_pos hlt] at h
    exact absurd h (by simp)
  · rw [if_neg hlt] at h
    have h2 : List.zipWith (fun e emb => { e with embedding := emb }) entries embs ++
        entries.drop embs.length = out := by
      injection h
    rw [← h2, List.length_append, List.length_zipWith, List.length_drop]
    omega

theorem zipWith_replicate_none :
    ∀ l : List Entry,
      List.zipWith (fun e emb => { e with embedding := emb }) l
        (List.replicate l.length none) =
      l.map (fun e => { e with embedding := none })
  | [] => rfl
  | a :: as => by
    simp only [List.length_cons, List.replicate, List.zipWith, List.map]
    rw [zipWith_replicate_none as]

theorem assignEmbeddings_replicate_none (entries : List Entry) :
    assignEmbeddings entries (List.replicate entries.length none) =
      Except.ok (entries.map (fun e => { e with embedding := none })) := by
  unfold assignEmbeddings
  rw [List.length_replicate, if_neg (lt_irrefl _), zipWith_replicate_none,
    List.drop_length, List.append_nil]

theorem generate_embeddings_calls (api : List String → Option (List Vec))
    (t : String) (ts : List String) :
    (generate_embeddings true api (t :: ts)).2 = [t :: ts] := by
  unfold generate_embeddings
  cases api (t :: ts) <;> simp

theorem generate_embeddings_api_none {api : List String → Option (List Vec)}
    {texts : List String} (h : api texts = none) (enable : Bool) :
    (generate_embeddings enable api texts).1 = List.replicate texts.length none := by
  unfold generate_embeddings
  by_cases hc : (!enable || texts.isEmpty) = true
  · rw [if_pos hc]
  · rw [if_neg hc, h]

theorem embedPhase_main_eq {strat : String} {api : List String → Option (List Vec)}
    (a : Entry) (as : List Entry) :
    embedPhase ⟨true, strat⟩ api (a :: as) =
      (match assignEmbeddings
          ((a :: as).map (fun e =>
            { e with embedding_text := prepare_embedding_text e strat }))
          (generate_embeddings true api
            (((a :: as).map (fun e =>
              { e with embedding_text := prepare_embedding_text e strat })).map
                (fun e => e.embedding_text))).1 with
      | Except.error u => Except.error u
      | Except.ok es2 =>
        Except.ok (es2,
          (generate_embeddings true api
            (((a :: as).map (fun e =>
              { e with embedding_text := prepare_embedding_text e strat })).map
                (fun e => e.embedding_text))).2)) := rfl

theorem embedPhase_ok_inv {strat : String} {api : List String → Option (List Vec)}
    {a : Entry} {as es' : List Entry} {calls : List (List String)}
    (h : embedPhase ⟨true, strat⟩ api (a :: as) = Except.ok (es', calls)) :
    es'.length = as.length + 1 ∧
    ∃ texts, calls = [texts] ∧ texts.length = as.length + 1 := by
  rw [embedPhase_main_eq] at h
  cases hass : assignEmbeddings
      ((a :: as).map (fun e =>
        { e with embedding_text := prepare_embedding_text e strat }))
      (generate_embeddings true api
        (((a :: as).map (fun e =>
          { e with embedding_text := prepare_embedding_text e strat })).map
            (fun e => e.embedding_text))).1 with
  | error u =>
    rw [hass] at h
    exact absurd h (by simp)
  | ok es2 =>
    rw [hass] at h
    have hpair : (es2,
        (generate_embeddings true api
          (((a :: as).map (fun e =>
            { e with embedding_text := prepare_embedding_text e strat })).map
              (fun e => e.embedding_text))).2) = (es', calls) := by
      injection h
    have hes : es2 = es' := congrArg Prod.fst hpair
    have hcalls : (generate_embeddings true api
        (((a :: as).map (fun e =>
          { e with embedding_text := prepare_embedding_text e strat })).map
            (fun e => e.embedding_text))).2 = calls := congrArg Prod.snd hpair
    constructor
    · rw [← hes, assignEmbeddings_length hass, List.length_map, List.length_cons]
    · refine ⟨((a :: as).map (fun e =>
        { e with embedding_text := prepare_embedding_text e strat })).map
          (fun e => e.embedding_text), ?_, ?_⟩
      · rw [← hcalls]
        simp only [List.map_cons]
        rw [generate_embeddings_calls]
      · rw [List.length_map, List.length_map, List.length_cons]

theorem embedPhase_api_none_allNull {strat : String}
    {api : List String → Option (List Vec)} {a : Entry} {as es' : List Entry}
    {calls : List (List String)} (hfail : ∀ ts, api ts = none)
    (h : embedPhase ⟨true, strat⟩ api (a :: as) = Except.ok (es', calls)) :
    ∀ e' ∈ es', e'.embedding = none := by
  rw [embedPhase_main_eq] at h
  rw [generate_embeddings_api_none (hfail _), List.length_map,
    assignEmbeddings_replicate_none] at h
  have hpair : (((a :: as).map (fun e =>
      { e with embedding_text := prepare_embedding_text e strat })).map
        (fun e => { e with embedding := none }),
      (generate_embeddings true api
        (((a :: as).map (fun e =>
          { e with embedding_text := prepare_embedding_text e strat })).map
            (fun e => e.embedding_text))).2) = (es', calls) := by
    injection h
  have hes : ((a :: as).map (fun e =>
      { e with embedding_text := prepare_embedding_text e strat })).map
        (fun e => { e with embedding := none }) = es' := congrArg Prod.fst hpair
  intro e' hmem
  rw [← hes] at hmem
  obtain ⟨x, _, hx⟩ := List.mem_map.mp hmem
  rw [← hx]

/-- C5: an embeddings-API exception yields a same-length all-null result;
for a non-empty batch of newly classified entries with embeddings enabled,
the embedding phase makes exactly one batched API call covering all of them
(and returns one entry per input), and if every API call fails each entry of
the batch comes out with a null embedding — never a mix; with no new entries
the phase makes no call at all. -/
theorem C5_batch_embedding_all_or_nothing :
    (∀ (enable : Bool) (api : List String → Option (List Vec)) (texts : List String),
      api texts = none →
        (generate_embeddings enable api texts).1 = List.replicate texts.length none) ∧
    (∀ (strat : String) (api : List String → Option (List Vec)) (es es' : List Entry)
        (calls : List (List String)),
      es ≠ [] → embedPhase ⟨true, strat⟩ api es = Except.ok (es', calls) →
        es'.length = es.length ∧
        ∃ texts, calls = [texts] ∧ texts.length = es.length) ∧
    (∀ (strat : String) (api : List String → Option (List Vec)) (es es' : List Entry)
        (calls : List (List String)),
      (∀ ts, api ts = none) → embedPhase ⟨true, strat⟩ api es = Except.ok (es', calls) →
        ∀ e' ∈ es', e'.embedding = none) ∧
    (∀ (cfg : Config) (api : List String → Option (List Vec)),
      embedPhase cfg api [] = Except.ok ([], [])) := by
  refine ⟨fun enable api texts h => generate_embeddings_api_none h enable, ?_, ?_, ?_⟩
  · intro strat api es es' calls hne h
    cases es with
    | nil => exact absurd rfl hne
    | cons a as =>
      obtain ⟨hlen, texts, hcalls, htlen⟩ := embedPhase_ok_inv h
      exact ⟨by rw [hlen, List.length_cons], texts, hcalls,
        by rw [htlen, List.length_cons]⟩
  · intro strat api es es' calls hfail h
    cases es with
    | nil =>
      have h2 : es' = [] := by
        have hp : (([], []) : List Entry × List (List String)) = (es', calls) := by
          injection h
        exact (congrArg Prod.fst hp).symm
      intro e' hmem
      rw [h2] at hmem
      exact absurd hmem (List.not_mem_nil e')
    | cons a as => exact embedPhase_api_none_allNull hfail h
  · intro cfg api
    rfl

/-- C5 witness: the theorem applied to a failing API over a batch of three
texts, and to a concrete one-entry batch whose single call fails. -/
theorem C5_batch_embedding_all_or_nothing_witness :
    (generate_embeddings true embFail ["a", "b", "c"]).1 =
      List.replicate 3 none ∧
    (∃ pr : List Entry × List (List String),
      embedPhase ⟨true, "hybrid"⟩ embFail [entry111] = Except.ok pr ∧
      pr.1.length = 1 ∧ (∃ texts, pr.2 = [texts] ∧ texts.length = 1) ∧
      ∀ e' ∈ pr.1, e'.embedding = none) := by
  constructor
  · exact C5_batch_embedding_all_or_nothing.1 true embFail ["a", "b", "c"] rfl
  · obtain ⟨pr, hpr⟩ : ∃ pr, embedPhase ⟨true, "hybrid"⟩ embFail [entry111] =
        Except.ok pr := ⟨_, rfl⟩
    refine ⟨pr, hpr, ?_⟩
    obtain ⟨h1, h2⟩ := C5_batch_embedding_all_or_nothing.2.1 "hybrid" embFail
      [entry111] pr.1 pr.2 (by simp) (by rw [← hpr])
    exact ⟨h1, h2,
      C5_batch_embedding_all_or_nothing.2.2.1 "hybrid" embFail [entry111] pr.1 pr.2
        (fun _ => rfl) (by rw [← hpr])⟩

/-- C7: a failure while processing one source is caught — the run simply
continues with the remaining sources from the unchanged store; fetch
exceptions and store-load exceptions are exactly such per-source failures; a
per-entry persistence failure only skips that entry while its siblings still
persist; and whenever startup succeeds the process exit code is 0, whatever
faults occur during processing. -/
theorem C7_per_source_error_isolation :
    (∀ (w : World) (cfg : Config) (st : Store) (name url : String)
        (rest : List (String × String)) (u : Unit),
      processSource w cfg st name url = Except.error u →
        process_rss_sources w cfg ((name, url) :: rest) st =
          process_rss_sources w cfg rest st) ∧
    (∀ (w : World) (cfg : Config) (st : Store) (name url : String),
      w.fetch url = Except.error () →
        processSource w cfg st name url = Except.error ()) ∧
    (∀ (w : World) (cfg : Config) (st : Store) (name url : String)
        (feed : List Entry),
      w.fetch url = Except.ok feed → w.loadFails name = true →
        processSource w cfg st name url = Except.error ()) ∧
    (∀ (w : World) (strategy s : String) (st : Store) (e : Entry)
        (rest : List Entry),
      w.saveFails s e.pmid = true →
        save_rss_data w strategy s (e :: rest) st =
          save_rss_data w strategy s rest st) ∧
    (∀ (w : World) (cfg : Config) (su : Startup) (st : Store) (key : String)
        (sources : List (String × String)),
      su.openai_api_key = some key → su.rss_sources = some sources →
        (runMain w cfg su st).1 = 0) := by
  refine ⟨?_, ?_, ?_, ?_, ?_⟩
  · intro w cfg st name url rest u h
    unfold process_rss_sources
    rw [List.foldl_cons]
    dsimp only
    rw [h]
  · intro w cfg st name url h
    unfold processSource
    rw [h]
  · intro w cfg st name url feed hfetch hload
    unfold processSource
    rw [hfetch, hload]
    rfl
  · intro w strategy s st e rest h
    show List.foldl (saveEntry w strategy s) (saveEntry w strategy s st e) rest =
      save_rss_data w strategy s rest st
    have hstep : saveEntry w strategy s st e = st := by
      unfold saveEntry
      rw [h, if_pos rfl]
    rw [hstep]
    rfl
  · intro w cfg su st key sources hkey hsrc
    unfold runMain
    rw [hkey, hsrc]

/-- C7 witness: a run over a failing source followed by a healthy one
processes the healthy one from the unchanged store and exits 0. -/
theorem C7_per_source_error_isolation_witness :
    process_rss_sources wFail {} [("A", "bad"), ("B", "good")] [] =
      process_rss_sources wFail {} [("B", "good")] [] ∧
    processSource wFail {} [] "A" "bad" = Except.error () ∧
    (runMain wFail {} ⟨some "key", some [("A", "bad"), ("B", "good")]⟩ []).1 = 0 :=
  ⟨C7_per_source_error_isolation.1 wFail {} [] "A" "bad" [("B", "good")] () rfl,
   C7_per_source_error_isolation.2.1 wFail {} [] "A" "bad" rfl,
   C7_per_source_error_isolation.2.2.2.2 wFail {}
     ⟨some "key", some [("A", "bad"), ("B", "good")]⟩ [] "key"
     [("A", "bad"), ("B", "good")] rfl rfl⟩

/-! ## Lemmas: batch disjointness and store uniqueness -/

theorem classifyStep_inv {chat : String → String → Option String}
    {st : ClassState} (e : Entry)
    (h1 : ∀ x ∈ st.newEntries, alistGet x.pmid st.existing = none)
    (h2 : ∀ k ∈ st.updatedKeys, (alistGet k st.existing).isSome = true) :
    (∀ x ∈ (classifyStep chat st e).newEntries,
      alistGet x.pmid (classifyStep chat st e).existing = none) ∧
    (∀ k ∈ (classifyStep chat st e).updatedKeys,
      (alistGet k (classifyStep chat st e).existing).isSome = true) := by
  cases hget : alistGet e.pmid st.existing with
  | none =>
    rw [classifyStep_of_isNone hget]
    constructor
    · intro x hx
      rcases List.mem_append.mp hx with hx | hx
      · exact h1 x hx
      · rw [List.mem_singleton] at hx
        subst hx
        exact hget
    · intro k hk
      exact h2 k hk
  | some ex =>
    by_cases hd : ex.doi ≠ e.doi
    · rw [classifyStep_of_update hget hd]
      constructor
      · intro x hx
        have hx' := h1 x hx
        have hne : ¬ e.pmid = x.pmid := by
          intro hEq
          rw [hEq] at hget
          rw [hget] at hx'
          exact Option.noConfusion hx'
        show alistGet x.pmid (alistSet e.pmid _ st.existing) = none
        rw [alistGet_alistSet, if_neg hne]
        exact hx'
      · intro k hk
        show (alistGet k (alistSet e.pmid _ st.existing)).isSome = true
        rw [alistGet_alistSet]
        by_cases hek : e.pmid = k
        · rw [if_pos hek]
          rfl
        · rw [if_neg hek]
          rcases List.mem_append.mp hk with hk | hk
          · exact h2 k hk
          · rw [List.mem_singleton] at hk
            exact absurd hk.symm hek
    · rw [classifyStep_of_unchanged hget (not_not.mp hd)]
      exact ⟨h1, h2⟩

theorem classify_fold_inv (chat : String → String → Option String)
    (cands : List Entry) :
    ∀ (st : ClassState),
    (∀ x ∈ st.newEntries, alistGet x.pmid st.existing = none) →
    (∀ k ∈ st.updatedKeys, (alistGet k st.existing).isSome = true) →
    (∀ x ∈ (cands.foldl (classifyStep chat) st).newEntries,
      alistGet x.pmid (cands.foldl (classifyStep chat) st).existing = none) ∧
    (∀ k ∈ (cands.foldl (classifyStep chat) st).updatedKeys,
      (alistGet k (cands.foldl (classifyStep chat) st).existing).isSome = true) := by
  induction cands with
  | nil =>
    intro st h1 h2
    exact ⟨h1, h2⟩
  | cons c cs ih =>
    intro st h1 h2
    rw [List.foldl_cons]
    obtain ⟨g1, g2⟩ := classifyStep_inv c h1 h2
    exact ih _ g1 g2

theorem saveEntry_uniqueKeys {w : World} {strategy s : String} {st : Store}
    {e : Entry} (h : UniqueKeys st) :
    UniqueKeys (saveEntry w strategy s st e) := by
  unfold saveEntry
  by_cases hf : w.saveFails s e.pmid
  · rw [if_pos hf]
    exact h
  · rw [if_neg hf]
    by_cases hemp : (selectKey st s e.pmid).isEmpty
    · rw [if_pos hemp]
      rw [UniqueKeys, List.pairwise_append]
      refine ⟨h, List.pairwise_singleton _ _, ?_⟩
      intro r hr r' hr'
      rw [List.mem_singleton] at hr'
      subst hr'
      intro hkey
      have hmatch : matchesKey s e.pmid r = true := decide_eq_true hkey
      have hmem : r ∈ selectKey st s e.pmid := List.mem_filter.mpr ⟨hr, hmatch⟩
      cases hsel : selectKey st s e.pmid with
      | nil =>
        rw [hsel] at hmem
        exact absurd hmem (List.not_mem_nil r)
      | cons x xs =>
        rw [hsel] at hemp
        simp at hemp
    · rw [if_neg hemp]
      refine List.Pairwise.map _ ?_ h
      intro a b hab hkey
      apply hab
      have ha : (if matchesKey s e.pmid a = true then updateRow strategy e a else a).source
            = a.source ∧
          (if matchesKey s e.pmid a = true then updateRow strategy e a else a).pmid
            = a.pmid := by
        by_cases hm : matchesKey s e.pmid a = true
        · rw [if_pos hm]
          exact ⟨updateRow_source strategy e a, updateRow_pmid strategy e a⟩
        · rw [if_neg hm]
          exact ⟨rfl, rfl⟩
      have hb : (if matchesKey s e.pmid b = true then updateRow strategy e b else b).source
            = b.source ∧
          (if matchesKey s e.pmid b = true then updateRow strategy e b else b).pmid
            = b.pmid := by
        by_cases hm : matchesKey s e.pmid b = true
        · rw [if_pos hm]
          exact ⟨updateRow_source strategy e b, updateRow_pmid strategy e b⟩
        · rw [if_neg hm]
          exact ⟨rfl, rfl⟩
      rw [← ha.1, ← ha.2, ← hb.1, ← hb.2]
      exact hkey

theorem save_rss_data_uniqueKeys {w : World} {strategy s : String}
    (entries : List Entry) :
    ∀ (st : Store), UniqueKeys st →
      UniqueKeys (save_rss_data w strategy s entries st) := by
  induction entries with
  | nil =>
    intro st h
    exact h
  | cons e rest ih =>
    intro st h
    show UniqueKeys (List.foldl (saveEntry w strategy s) (saveEntry w strategy s st e) rest)
    exact ih _ (saveEntry_uniqueKeys h)

theorem processSource_uniqueKeys {w : World} {cfg : Config} {st : Store}
    {name url : String} {r : SourceResult}
    (h : processSource w cfg st name url = Except.ok r) (hu : UniqueKeys st) :
    UniqueKeys r.store := by
  unfold processSource at h
  cases hfetch : w.fetch url with
  | error u =>
    rw [hfetch] at h
    exact absurd h (by simp)
  | ok feed =>
    rw [hfetch] at h
    dsimp only at h
    by_cases hload : w.loadFails name
    · rw [if_pos hload] at h
      exact absurd h (by simp)
    · rw [if_neg hload] at h
      unfold processSourceCore at h
      cases hemb : embedPhase cfg w.embedApi (classOut w st name feed).newEntries with
      | error u =>
        rw [hemb] at h
        exact absurd h (by simp)
      | ok pr =>
        rw [hemb] at h
        obtain ⟨newE, calls⟩ := pr
        have h3 : (⟨if (newE ++ resolvedUpdates (classOut w st name feed)).isEmpty then st
              else save_rss_data w cfg.embedding_strategy name
                (newE ++ resolvedUpdates (classOut w st name feed)) st,
            (classOut w st name feed).newEntries.length,
            (classOut w st name feed).updatedKeys.length, calls⟩ : SourceResult) = r := by
          injection h
        rw [← h3]
        by_cases hite : (newE ++ resolvedUpdates (classOut w st name feed)).isEmpty
        · show UniqueKeys (if (newE ++ resolvedUpdates (classOut w st name feed)).isEmpty
              then st
              else save_rss_data w cfg.embedding_strategy name
                (newE ++ resolvedUpdates (classOut w st name feed)) st)
          rw [if_pos hite]
          exact hu
        · show UniqueKeys (if (newE ++ resolvedUpdates (classOut w st name feed)).isEmpty
              then st
              else save_rss_data w cfg.embedding_strategy name
                (newE ++ resolvedUpdates (classOut w st name feed)) st)
          rw [if_neg hite]
          exact save_rss_data_uniqueKeys _ st hu

theorem process_rss_sources_uniqueKeys {w : World} {cfg : Config}
    (sources : List (String × String)) :
    ∀ (st : Store), UniqueKeys st →
      UniqueKeys (process_rss_sources w cfg sources st) := by
  induction sources with
  | nil =>
    intro st h
    exact h
  | cons nu rest ih =>
    intro st h
    unfold process_rss_sources
    rw [List.foldl_cons]
    cases hps : processSource w cfg st nu.1 nu.2 with
    | error u => exact ih st h
    | ok r => exact ih r.store (processSource_uniqueKeys hps h)

/-- C3: for every candidate sequence of one reconciliation pass — including
sequences with duplicated pmids — no pmid of the NEW batch ever appears in
the UPDATE batch; and persistence preserves the store invariant of at most
one row per `(source, pmid)` pair across a whole run. -/
theorem C3_identity_key_uniqueness :
    (∀ (chat : String → String → Option String)
        (m : List (Option String × Entry)) (cands : List Entry),
      ∀ x ∈ (cands.foldl (classifyStep chat) ⟨m, [], []⟩).newEntries,
      ∀ k ∈ (cands.foldl (classifyStep chat) ⟨m, [], []⟩).updatedKeys,
        x.pmid ≠ k) ∧
    (∀ (w : World) (cfg : Config) (sources : List (String × String)) (st : Store),
      UniqueKeys st → UniqueKeys (process_rss_sources w cfg sources st)) := by
  constructor
  · intro chat m cands x hx k hk hEq
    obtain ⟨g1, g2⟩ := classify_fold_inv chat cands ⟨m, [], []⟩
      (fun y hy => absurd hy (List.not_mem_nil y))
      (fun y hy => absurd hy (List.not_mem_nil y))
    have h1 := g1 x hx
    have h2 := g2 k hk
    rw [hEq] at h1
    rw [h1] at h2
    simp at h2
  · intro w cfg sources st h
    exact process_rss_sources_uniqueKeys sources st h

/-- C3 witness: a pass producing one NEW entry and one queued update has
disjoint keys, and a run from the empty (trivially unique-keyed) store
yields a unique-keyed store. -/
theorem C3_identity_key_uniqueness_witness :
    (enrichOne chatNone entry222).pmid ≠ some "111" ∧
    UniqueKeys (process_rss_sources (mkWorld [entry111, entry222]) {}
      [("S", "u")] []) :=
  ⟨C3_identity_key_uniqueness.1 chatNone [(some "111", storedX)]
      [entry222, candNullDoi] (enrichOne chatNone entry222) (by decide)
      (some "111") (by decide),
   C3_identity_key_uniqueness.2 (mkWorld [entry111, entry222]) {} [("S", "u")] []
      List.Pairwise.nil⟩

/-! ## Lemmas: classification characterization under distinct pmids -/

theorem classifyStep_mk_of_isNone {chat : String → String → Option String}
    {m : List (Option String × Entry)} {ns : List Entry} {us : List (Option String)}
    {e : Entry} (h : alistGet e.pmid m = none) :
    classifyStep chat ⟨m, ns, us⟩ e = ⟨m, ns ++ [enrichOne chat e], us⟩ := by
  rw [classifyStep_of_isNone h]

theorem classifyStep_mk_of_update {chat : String → String → Option String}
    {m : List (Option String × Entry)} {ns : List Entry} {us : List (Option String)}
    {e ex : Entry} (h : alistGet e.pmid m = some ex) (hne : ex.doi ≠ e.doi) :
    classifyStep chat ⟨m, ns, us⟩ e =
      ⟨alistSet e.pmid { ex with doi := e.doi } m, ns, us ++ [e.pmid]⟩ := by
  rw [classifyStep_of_update h hne]

theorem classify_fold_char (chat : String → String → Option String) :
    ∀ (feed : List Entry) (m : List (Option String × Entry)) (ns : List Entry)
      (us : List (Option String)),
      (feed.map (fun e => e.pmid)).Nodup →
      (feed.foldl (classifyStep chat) ⟨m, ns, us⟩).newEntries =
        ns ++ (feed.filter (fun c => isNewCand m c)).map (enrichOne chat) ∧
      (feed.foldl (classifyStep chat) ⟨m, ns, us⟩).updatedKeys =
        us ++ (feed.filter (fun c => needUpd m c)).map (fun c => c.pmid) ∧
      (∀ p, (∀ c ∈ feed, c.pmid ≠ p) →
        alistGet p (feed.foldl (classifyStep chat) ⟨m, ns, us⟩).existing =
          alistGet p m) ∧
      (∀ c ∈ feed, ∀ ex, alistGet c.pmid m = some ex →
        alistGet c.pmid (feed.foldl (classifyStep chat) ⟨m, ns, us⟩).existing =
          some (if ex.doi ≠ c.doi then { ex with doi := c.doi } else ex)) := by
  intro feed
  induction feed with
  | nil =>
    intro m ns us _
    exact ⟨by simp, by simp, fun p _ => rfl,
      fun c hc => absurd hc (List.not_mem_nil c)⟩
  | cons c cs ih =>
    intro m ns us hnd
    rw [List.map_cons, List.nodup_cons] at hnd
    obtain ⟨hc, hnd'⟩ := hnd
    have hpm : ∀ c' ∈ cs, c'.pmid ≠ c.pmid := by
      intro c' h' hEq
      exact hc (hEq ▸ List.mem_map_of_mem _ h')
    rw [List.foldl_cons]
    cases hget : alistGet c.pmid m with
    | none =>
      rw [classifyStep_mk_of_isNone hget]
      obtain ⟨g1, g2, g3, g4⟩ := ih m (ns ++ [enrichOne chat c]) us hnd'
      have hnewc : isNewCand m c = true := by simp [isNewCand, hget]
      have hupdc : needUpd m c = false := by simp [needUpd, hget]
      refine ⟨?_, ?_, ?_, ?_⟩
      · rw [g1, List.filter_cons, hnewc]
        simp
      · rw [g2, List.filter_cons, hupdc]
        simp
      · intro p hp
        exact g3 p (fun c' h' => hp c' (List.mem_cons_of_mem c h'))
      · intro c' hc' ex0 hex0
        rcases List.mem_cons.mp hc' with hEq | hmem
        · subst hEq
          rw [hex0] at hget
          exact Option.noConfusion hget
        · exact g4 c' hmem ex0 hex0
    | some ex =>
      by_cases hd : ex.doi ≠ c.doi
      · rw [classifyStep_mk_of_update hget hd]
        obtain ⟨g1, g2, g3, g4⟩ :=
          ih (alistSet c.pmid { ex with doi := c.doi } m) ns (us ++ [c.pmid]) hnd'
        have hagree : ∀ c' ∈ cs,
            alistGet c'.pmid (alistSet c.pmid { ex with doi := c.doi } m) =
              alistGet c'.pmid m := by
          intro c' h'
          rw [alistGet_alistSet, if_neg (fun hEq => hpm c' h' hEq.symm)]
        have hfnew : cs.filter
              (fun a => isNewCand (alistSet c.pmid { ex with doi := c.doi } m) a) =
            cs.filter (fun a => isNewCand m a) :=
          List.filter_congr (fun a ha => by unfold isNewCand; rw [hagree a ha])
        have hfupd : cs.filter
              (fun a => needUpd (alistSet c.pmid { ex with doi := c.doi } m) a) =
            cs.filter (fun a => needUpd m a) :=
          List.filter_congr (fun a ha => by unfold needUpd; rw [hagree a ha])
        have hnewc : isNewCand m c = false := by simp [isNewCand, hget]
        have hupdc : needUpd m c = true := by simp [needUpd, hget, hd]
        refine ⟨?_, ?_, ?_, ?_⟩
        · rw [g1, hfnew, List.filter_cons, hnewc]
          simp
        · rw [g2, hfupd, List.filter_cons, hupdc]
          simp
        · intro p hp
          rw [g3 p (fun c' h' => hp c' (List.mem_cons_of_mem c h')),
            alistGet_alistSet, if_neg (hp c (List.mem_cons_self c cs))]
        · intro c' hc' ex0 hex0
          rcases List.mem_cons.mp hc' with hEq | hmem
          · subst hEq
            rw [hget] at hex0
            have hex : ex0 = ex := (Option.some.injEq _ _ ▸ hex0).symm
            subst hex
            rw [g3 c'.pmid hpm, alistGet_alistSet, if_pos rfl, if_pos hd]
          · have hex0' : alistGet c'.pmid
                (alistSet c.pmid { ex with doi := c.doi } m) = some ex0 := by
              rw [hagree c' hmem]
              exact hex0
            exact g4 c' hmem ex0 hex0'
      · have heq : ex.doi = c.doi := not_not.mp hd
        rw [classifyStep_of_unchanged hget heq]
        obtain ⟨g1, g2, g3, g4⟩ := ih m ns us hnd'
        have hnewc : isNewCand m c = false := by simp [isNewCand, hget]
        have hupdc : needUpd m c = false := by simp [needUpd, hget, heq]
        refine ⟨?_, ?_, ?_, ?_⟩
        · rw [g1, List.filter_cons, hnewc]
          simp
        · rw [g2, List.filter_cons, hupdc]
          simp
        · intro p hp
          exact g3 p (fun c' h' => hp c' (List.mem_cons_of_mem c h'))
        · intro c' hc' ex0 hex0
          rcases List.mem_cons.mp hc' with hEq | hmem
          · subst hEq
            rw [hget] at hex0
            have hex : ex0 = ex := (Option.some.injEq _ _ ▸ hex0).symm
            subst hex
            rw [g3 c'.pmid hpm, hget, if_neg hd]
          · exact g4 c' hmem ex0 hex0

/-! ## Lemmas: dict building and store lookup -/

theorem alistGet_buildMap_aux (p : Option String) :
    ∀ (rows : List Row) (m : List (Option String × Entry)),
      alistGet p (rows.foldl (fun m r => alistSet r.pmid (rowToEntry r) m) m) =
        match lastRow p rows with
        | some r => some (rowToEntry r)
        | none => alistGet p m := by
  intro rows
  induction rows with
  | nil =>
    intro m
    rfl
  | cons r rs ih =>
    intro m
    rw [List.foldl_cons, ih]
    cases hlast : lastRow p rs with
    | some r' => simp [lastRow, hlast]
    | none =>
      simp only [lastRow, hlast]
      rw [alistGet_alistSet]
      by_cases hp : r.pmid = p
      · rw [if_pos hp, if_pos hp]
      · rw [if_neg hp, if_neg hp]

theorem alistGet_buildMap (rows : List Row) (p : Option String) :
    alistGet p (buildMap rows) = (lastRow p rows).map rowToEntry := by
  unfold buildMap
  rw [alistGet_buildMap_aux p rows []]
  cases lastRow p rows <;> rfl

theorem lastRow_filter (p : Option String) :
    ∀ rows : List Row,
      lastRow p rows = lastElem (rows.filter (fun r => decide (r.pmid = p))) := by
  intro rows
  induction rows with
  | nil => rfl
  | cons r rs ih =>
    rw [List.filter_cons]
    by_cases hp : r.pmid = p
    · rw [if_pos (decide_eq_true hp)]
      simp only [lastRow, lastElem]
      rw [ih]
      cases lastElem (rs.filter (fun r => decide (r.pmid = p))) with
      | some y => rfl
      | none => rw [if_pos hp]
    · rw [if_neg (by simp [hp])]
      simp only [lastRow]
      rw [ih]
      cases lastElem (rs.filter (fun r => decide (r.pmid = p))) with
      | some y => rfl
      | none => rw [if_neg hp]

theorem selectKey_eq_filter_load (st : Store) (s : String) (p : Option String) :
    (load_existing_data_for_source st s).filter (fun r => decide (r.pmid = p)) =
      selectKey st s p := by
  unfold load_existing_data_for_source selectKey
  induction st with
  | nil => rfl
  | cons r rs ih =>
    by_cases hsrc : r.source = s
    · by_cases hp : r.pmid = p
      · simp [List.filter_cons, matchesKey, hsrc, hp, ih]
      · simp [List.filter_cons, matchesKey, hsrc, hp, ih]
    · simp [List.filter_cons, matchesKey, hsrc, ih]

theorem alistGet_buildMap_load (st : Store) (s : String) (p : Option String) :
    alistGet p (buildMap (load_existing_data_for_source st s)) =
      (lastElem (selectKey st s p)).map rowToEntry := by
  rw [alistGet_buildMap, lastRow_filter, selectKey_eq_filter_load]

theorem lastElem_mem {α : Type} :
    ∀ l : List α, l ≠ [] → ∃ x, lastElem l = some x ∧ x ∈ l
  | [], h => absurd rfl h
  | a :: as, _ => by
    cases has : lastElem as with
    | none => exact ⟨a, by simp [lastElem, has], List.mem_cons_self a as⟩
    | some y =>
      have hne : as ≠ [] := by
        intro hnil
        rw [hnil] at has
        exact Option.noConfusion has
      obtain ⟨x, hx, hmem⟩ := lastElem_mem as hne
      rw [has] at hx
      injection hx with hx
      subst hx
      exact ⟨y, by simp [lastElem, has], List.mem_cons_of_mem a hmem⟩

theorem MapWF_alistSet {m : List (Option String × Entry)} {k : Option String}
    {v : Entry} (hwf : MapWF m) (hv : v.pmid = k) : MapWF (alistSet k v m) := by
  intro k' v' h
  rw [alistGet_alistSet] at h
  by_cases hk : k = k'
  · rw [if_pos hk] at h
    injection h with h
    rw [← h, hv, hk]
  · rw [if_neg hk] at h
    exact hwf k' v' h

theorem MapWF_buildMap (rows : List Row) : MapWF (buildMap rows) := by
  unfold buildMap
  have haux : ∀ (rs : List Row) (m : List (Option String × Entry)), MapWF m →
      MapWF (rs.foldl (fun m r => alistSet r.pmid (rowToEntry r) m) m) := by
    intro rs
    induction rs with
    | nil => exact fun m hm => hm
    | cons r rs' ih =>
      intro m hm
      rw [List.foldl_cons]
      exact ih _ (MapWF_alistSet hm rfl)
  exact haux rows []
    (fun k v h => Option.noConfusion h)

/-! ## Lemmas: how saving touches the store, key by key -/

theorem matchesKey_updateRow {strat s : String} {p : Option String} {e : Entry}
    {r : Row} : matchesKey s p (updateRow strat e r) = matchesKey s p r := by
  unfold matchesKey
  rw [updateRow_source, updateRow_pmid]

theorem filter_map_update_other {strat s : String} {e : Entry} {p : Option String}
    (h : p ≠ e.pmid) :
    ∀ st : Store,
      (st.map (fun r => if matchesKey s e.pmid r then updateRow strat e r else r)).filter
        (matchesKey s p) = st.filter (matchesKey s p)
  | [] => rfl
  | r :: rs => by
    rw [List.map_cons, List.filter_cons, List.filter_cons]
    by_cases hm : matchesKey s e.pmid r = true
    · rw [if_pos hm]
      have hfalse : matchesKey s p r = false := by
        cases hq : matchesKey s p r with
        | false => rfl
        | true =>
          have h1 := of_decide_eq_true hm
          have h2 := of_decide_eq_true hq
          exact absurd (h2.2.symm.trans h1.2) h
      rw [matchesKey_updateRow, hfalse]
      simp only [Bool.false_eq_true, if_false]
      exact filter_map_update_other h rs
    · rw [if_neg hm]
      cases hq : matchesKey s p r with
      | false =>
        simp only [Bool.false_eq_true, if_false]
        exact filter_map_update_other h rs
      | true =>
        simp only [if_true]
        rw [filter_map_update_other h rs]
  termination_by st => st.length

theorem filter_map_update_self {strat s : String} {e : Entry} :
    ∀ st : Store,
      (st.map (fun r => if matchesKey s e.pmid r then updateRow strat e r else r)).filter
        (matchesKey s e.pmid) =
      (st.filter (matchesKey s e.pmid)).map (updateRow strat e)
  | [] => rfl
  | r :: rs => by
    rw [List.map_cons, List.filter_cons, List.filter_cons]
    by_cases hm : matchesKey s e.pmid r = true
    · rw [if_pos hm, matchesKey_updateRow, hm]
      simp only [if_true]
      rw [List.map_cons, filter_map_update_self rs]
    · rw [if_neg hm]
      cases hq : matchesKey s e.pmid r with
      | false =>
        simp only [Bool.false_eq_true, if_false]
        exact filter_map_update_self rs
      | true => exact absurd hq hm
  termination_by st => st.length

theorem selectKey_saveEntry_other {w : World} {strat s : String} {st : Store}
    {e : Entry} {p : Option String} (h : p ≠ e.pmid) :
    selectKey (saveEntry w strat s st e) s p = selectKey st s p := by
  unfold saveEntry
  by_cases hf : w.saveFails s e.pmid
  · rw [if_pos hf]
  · rw [if_neg hf]
    by_cases hemp : (selectKey st s e.pmid).isEmpty
    · rw [if_pos hemp]
      unfold selectKey
      rw [List.filter_append]
      have hsingle : ([insertRow strat s e] : Store).filter (matchesKey s p) = [] := by
        rw [List.filter_cons]
        have hfalse : matchesKey s p (insertRow strat s e) = false := by
          unfold matchesKey
          apply decide_eq_false
          intro hand
          exact h hand.2.symm
        rw [hfalse]
        simp
      rw [hsingle, List.append_nil]
    · rw [if_neg hemp]
      exact filter_map_update_other h st

theorem selectKey_saveEntry_self {w : World} {strat s : String} {st : Store}
    {e : Entry} (hf : w.saveFails s e.pmid = false) :
    selectKey (saveEntry w strat s st e) s e.pmid =
      if (selectKey st s e.pmid).isEmpty then [insertRow strat s e]
      else (selectKey st s e.pmid).map (updateRow strat e) := by
  unfold saveEntry
  rw [if_neg (by rw [hf]; exact Bool.false_ne_true)]
  by_cases hemp : (selectKey st s e.pmid).isEmpty
  · rw [if_pos hemp, if_pos hemp]
    unfold selectKey at hemp ⊢
    rw [List.filter_append]
    have hnil : st.filter (matchesKey s e.pmid) = [] := by
      cases hsel : st.filter (matchesKey s e.pmid) with
      | nil => rfl
      | cons x xs =>
        rw [hsel] at hemp
        simp at hemp
    rw [hnil, List.nil_append, List.filter_cons]
    have : matchesKey s e.pmid (insertRow strat s e) = true := by
      simp [matchesKey, insertRow]
    rw [this]
    simp
  · rw [if_neg hemp, if_neg hemp]
    exact filter_map_update_self st

theorem selectKey_save_other {w : World} {strat s : String} :
    ∀ (entries : List Entry) (st : Store) (p : Option String),
      (∀ e ∈ entries, e.pmid ≠ p) →
      selectKey (save_rss_data w strat s entries st) s p = selectKey st s p
  | [], _, _, _ => rfl
  | e :: rest, st, p, h => by
    show selectKey (save_rss_data w strat s rest (saveEntry w strat s st e)) s p
      = selectKey st s p
    rw [selectKey_save_other rest (saveEntry w strat s st e) p
      (fun e' h' => h e' (List.mem_cons_of_mem e h'))]
    exact selectKey_saveEntry_other
      (fun hEq => h e (List.mem_cons_self e rest) hEq.symm)
  termination_by entries => entries.length

theorem selectKey_save_covered {w : World} {strat s : String}
    (hsf : ∀ p, w.saveFails s p = false) :
    ∀ (entries : List Entry) (st : Store),
      ((entries.map (fun e => e.pmid)).Nodup) →
      ∀ e ∈ entries,
        selectKey (save_rss_data w strat s entries st) s e.pmid ≠ [] ∧
        ∀ r ∈ selectKey (save_rss_data w strat s entries st) s e.pmid,
          r.doi = e.doi := by
  intro entries
  induction entries with
  | nil =>
    intro st _ e he
    exact absurd he (List.not_mem_nil e)
  | cons a rest ih =>
    intro st hnd e he
    rw [List.map_cons, List.nodup_cons] at hnd
    obtain ⟨ha, hnd'⟩ := hnd
    have hshow : save_rss_data w strat s (a :: rest) st =
        save_rss_data w strat s rest (saveEntry w strat s st a) := rfl
    rw [hshow]
    rcases List.mem_cons.mp he with hEq | hmem
    · subst hEq
      have hpres : selectKey (save_rss_data w strat s rest (saveEntry w strat s st e))
          s e.pmid = selectKey (saveEntry w strat s st e) s e.pmid := by
        refine selectKey_save_other rest _ e.pmid ?_
        intro e' h' hEq
        exact ha (hEq ▸ List.mem_map_of_mem _ h')
      rw [hpres, selectKey_saveEntry_self (hsf e.pmid)]
      by_cases hemp : (selectKey st s e.pmid).isEmpty
      · rw [if_pos hemp]
        refine ⟨by simp, ?_⟩
        intro r hr
        rw [List.mem_singleton] at hr
        subst hr
        rfl
      · rw [if_neg hemp]
        constructor
        · cases hsel : selectKey st s e.pmid with
          | nil =>
            rw [hsel] at hemp
            simp at hemp
          | cons x xs => simp
        · intro r hr
          obtain ⟨x, _, hx⟩ := List.mem_map.mp hr
          rw [← hx]
          exact updateRow_doi strat e x
    · exact ih (saveEntry w strat s st a) hnd' e hmem

/-! ## Lemmas: the embedding phase preserves the identity fields -/

theorem proj_zip_drop :
    ∀ (l : List Entry) (embs : List (Option Vec)), embs.length ≤ l.length →
      (List.zipWith (fun (e : Entry) (emb : Option Vec) =>
          { e with embedding := emb }) l embs ++
        l.drop embs.length).map (fun (e : Entry) => (e.pmid, e.doi)) =
      l.map (fun (e : Entry) => (e.pmid, e.doi))
  | l, [], _ => by
    rw [List.zipWith_nil_right, List.length_nil, List.drop_zero, List.nil_append]
  | [], _ :: _, h => by simp at h
  | a :: as, b :: bs, h => by
    simp only [List.zipWith_cons_cons, List.length_cons, List.drop_succ_cons,
      List.cons_append, List.map_cons]
    rw [proj_zip_drop as bs (by simpa using h)]
  termination_by l _ _ => l.length

theorem assignEmbeddings_proj {l out : List Entry} {embs : List (Option Vec)}
    (h : assignEmbeddings l embs = Except.ok out) :
    out.map (fun e => (e.pmid, e.doi)) = l.map (fun e => (e.pmid, e.doi)) := by
  unfold assignEmbeddings at h
  by_cases hlt : l.length < embs.length
  · rw [if_pos hlt] at h
    exact absurd h (by simp)
  · rw [if_neg hlt] at h
    have h2 : List.zipWith (fun e emb => { e with embedding := emb }) l embs ++
        l.drop embs.length = out := by injection h
    rw [← h2]
    exact proj_zip_drop l embs (le_of_not_lt hlt)

theorem embedPhase_proj {cfg : Config} {api : List String → Option (List Vec)}
    {es es' : List Entry} {calls : List (List String)}
    (h : embedPhase cfg api es = Except.ok (es', calls)) :
    es'.map (fun e => (e.pmid, e.doi)) = es.map (fun e => (e.pmid, e.doi)) := by
  cases es with
  | nil =>
    have hp : (([], []) : List Entry × List (List String)) = (es', calls) := by
      injection h
    have hes : es' = ([] : List Entry) := (congrArg Prod.fst hp).symm
    rw [hes]
  | cons a as =>
    obtain ⟨en, strat⟩ := cfg
    cases en with
    | false =>
      have hp : ((a :: as, []) : List Entry × List (List String)) = (es', calls) := by
        injection h
      have hes : a :: as = es' := congrArg Prod.fst hp
      rw [← hes]
    | true =>
      rw [embedPhase_main_eq] at h
      cases hass : assignEmbeddings
          ((a :: as).map (fun e =>
            { e with embedding_text := prepare_embedding_text e strat }))
          (generate_embeddings true api
            (((a :: as).map (fun e =>
              { e with embedding_text := prepare_embedding_text e strat })).map
                (fun e => e.embedding_text))).1 with
      | error u =>
        rw [hass] at h
        exact absurd h (by simp)
      | ok es2 =>
        rw [hass] at h
        have hpair : (es2,
            (generate_embeddings true api
              (((a :: as).map (fun e =>
                { e with embedding_text := prepare_embedding_text e strat })).map
                  (fun e => e.embedding_text))).2) = (es', calls) := by
          injection h
        have hes : es2 = es' := congrArg Prod.fst hpair
        rw [← hes, assignEmbeddings_proj hass, List.map_map]
        rfl

/-! ## Lemmas: a run whose candidates are all up to date is a no-op -/

theorem fold_unchanged {chat : String → String → Option String} :
    ∀ (cands : List Entry) (st : ClassState),
      (∀ c ∈ cands, ∃ ex, alistGet c.pmid st.existing = some ex ∧ ex.doi = c.doi) →
      cands.foldl (classifyStep chat) st = st
  | [], _, _ => rfl
  | c :: cs, st, h => by
    obtain ⟨ex, hget, hdoi⟩ := h c (List.mem_cons_self c cs)
    rw [List.foldl_cons, classifyStep_of_unchanged hget hdoi]
    exact fold_unchanged cs st (fun c' h' => h c' (List.mem_cons_of_mem c h'))
  termination_by cands _ _ => cands.length

theorem save_ite (w : World) (strat name : String) (toSave : List Entry)
    (st : Store) :
    (if toSave.isEmpty then st else save_rss_data w strat name toSave st) =
      save_rss_data w strat name toSave st := by
  cases toSave <;> rfl

/-- C1 (amended): provided the feed's candidate pmids are pairwise distinct
(and the source's fetch, load and per-entry store operations succeed), the
fetch-reconcile-persist cycle is idempotent: a second run over the same feed
classifies every candidate as UNCHANGED — zero inserts, zero updates, no
embedding call — and returns the stored state of the first run unchanged. -/
theorem C1_amended_idempotence :
    ∀ (w : World) (cfg : Config) (st : Store) (name url : String)
      (feed : List Entry) (r1 : SourceResult),
      w.fetch url = Except.ok feed →
      w.loadFails name = false →
      (∀ p, w.saveFails name p = false) →
      (feed.map (fun e => e.pmid)).Nodup →
      processSource w cfg st name url = Except.ok r1 →
      processSource w cfg r1.store name url = Except.ok ⟨r1.store, 0, 0, []⟩ := by
  intro w cfg st name url feed r1 hfetch hload hsf hnd h1
  unfold processSource at h1 ⊢
  rw [hfetch] at h1 ⊢
  dsimp only at h1 ⊢
  rw [if_neg (by rw [hload]; exact Bool.false_ne_true)] at h1 ⊢
  unfold processSourceCore at h1
  cases hemb : embedPhase cfg w.embedApi (classOut w st name feed).newEntries with
  | error u =>
    rw [hemb] at h1
    exact absurd h1 (by simp)
  | ok pr =>
  rw [hemb] at h1
  obtain ⟨newE, calls⟩ := pr
  have hr1 : (⟨if (newE ++ resolvedUpdates (classOut w st name feed)).isEmpty then st
        else save_rss_data w cfg.embedding_strategy name
          (newE ++ resolvedUpdates (classOut w st name feed)) st,
      (classOut w st name feed).newEntries.length,
      (classOut w st name feed).updatedKeys.length, calls⟩ : SourceResult) = r1 := by
    injection h1
  have hstore : r1.store = save_rss_data w cfg.embedding_strategy name
      (newE ++ resolvedUpdates (classOut w st name feed)) st := by
    rw [← hr1]
    exact save_ite w cfg.embedding_strategy name _ st
  obtain ⟨hnew, hupd, huntouched, hgetspec⟩ :=
    classify_fold_char w.chat feed
      (buildMap (load_existing_data_for_source st name)) [] [] hnd
  have hcnew : (classOut w st name feed).newEntries =
      (feed.filter (fun c =>
        isNewCand (buildMap (load_existing_data_for_source st name)) c)).map
          (enrichOne w.chat) := by
    show (feed.foldl (classifyStep w.chat)
        ⟨buildMap (load_existing_data_for_source st name), [], []⟩).newEntries = _
    rw [hnew, List.nil_append]
  have hcupd : (classOut w st name feed).updatedKeys =
      (feed.filter (fun c =>
        needUpd (buildMap (load_existing_data_for_source st name)) c)).map
          (fun c => c.pmid) := by
    show (feed.foldl (classifyStep w.chat)
        ⟨buildMap (load_existing_data_for_source st name), [], []⟩).updatedKeys = _
    rw [hupd, List.nil_append]
  have hwf : MapWF (buildMap (load_existing_data_for_source st name)) :=
    MapWF_buildMap _
  have h1p : newE.map (fun e => (e.pmid, e.doi)) =
      (feed.filter (fun c =>
        isNewCand (buildMap (load_existing_data_for_source st name)) c)).map
          (fun c => (c.pmid, c.doi)) := by
    rw [embedPhase_proj hemb, hcnew, List.map_map]
    rfl
  have hnewpm : newE.map (fun e => e.pmid) =
      (feed.filter (fun c =>
        isNewCand (buildMap (load_existing_data_for_source st name)) c)).map
          (fun c => c.pmid) := by
    have step1 : newE.map (fun e => e.pmid) =
        (newE.map (fun e => (e.pmid, e.doi))).map Prod.fst := by
      rw [List.map_map]
      rfl
    rw [step1, h1p, List.map_map]
    rfl
  have hresval : ∀ c ∈ feed,
      needUpd (buildMap (load_existing_data_for_source st name)) c = true →
      ∃ ex, alistGet c.pmid (buildMap (load_existing_data_for_source st name)) =
          some ex ∧ ex.doi ≠ c.doi ∧
        alistGet c.pmid (classOut w st name feed).existing =
          some { ex with doi := c.doi } := by
    intro c hc hn
    unfold needUpd at hn
    cases hget : alistGet c.pmid (buildMap (load_existing_data_for_source st name)) with
    | none =>
      rw [hget] at hn
      exact absurd hn (by simp)
    | some ex =>
      rw [hget] at hn
      have hd : ex.doi ≠ c.doi := of_decide_eq_true hn
      refine ⟨ex, rfl, hd, ?_⟩
      have hval := hgetspec c hc ex hget
      rw [if_pos hd] at hval
      exact hval
  have hres : resolvedUpdates (classOut w st name feed) =
      (feed.filter (fun c =>
        needUpd (buildMap (load_existing_data_for_source st name)) c)).map
          (fun c => (alistGet c.pmid (classOut w st name feed).existing).getD default) := by
    unfold resolvedUpdates
    rw [hcupd, List.map_map]
    rfl
  have hrespm : (resolvedUpdates (classOut w st name feed)).map (fun e => e.pmid) =
      (feed.filter (fun c =>
        needUpd (buildMap (load_existing_data_for_source st name)) c)).map
          (fun c => c.pmid) := by
    rw [hres, List.map_map]
    apply List.map_congr_left
    intro c hcmem
    obtain ⟨hcf, hcn⟩ := List.mem_filter.mp hcmem
    obtain ⟨ex, hget, _, hfinal⟩ := hresval c hcf hcn
    show ((alistGet c.pmid (classOut w st name feed).existing).getD default).pmid = c.pmid
    rw [hfinal]
    show ex.pmid = c.pmid
    exact hwf c.pmid ex hget
  have hnd1 : (newE.map (fun e => e.pmid)).Nodup := by
    rw [hnewpm]
    exact hnd.sublist ((List.filter_sublist feed).map _)
  have hnd2 : ((resolvedUpdates (classOut w st name feed)).map
      (fun e => e.pmid)).Nodup := by
    rw [hrespm]
    exact hnd.sublist ((List.filter_sublist feed).map _)
  have hdisj : List.Disjoint (newE.map (fun e => e.pmid))
      ((resolvedUpdates (classOut w st name feed)).map (fun e => e.pmid)) := by
    rw [hnewpm, hrespm]
    intro p hp1 hp2
    obtain ⟨c1, hc1mem, hc1⟩ := List.mem_map.mp hp1
    obtain ⟨c2, hc2mem, hc2⟩ := List.mem_map.mp hp2
    obtain ⟨_, hc1n⟩ := List.mem_filter.mp hc1mem
    obtain ⟨_, hc2n⟩ := List.mem_filter.mp hc2mem
    unfold isNewCand at hc1n
    unfold needUpd at hc2n
    rw [hc1] at hc1n
    rw [hc2] at hc2n
    cases hget : alistGet p (buildMap (load_existing_data_for_source st name)) with
    | none => rw [hget] at hc2n; simp at hc2n
    | some ex => rw [hget] at hc1n; simp at hc1n
  have hndall : ((newE ++ resolvedUpdates (classOut w st name feed)).map
      (fun e => e.pmid)).Nodup := by
    rw [List.map_append]
    exact hnd1.append hnd2 hdisj
  have hkey : ∀ c ∈ feed, ∃ rrow,
      lastElem (selectKey (save_rss_data w cfg.embedding_strategy name
        (newE ++ resolvedUpdates (classOut w st name feed)) st) name c.pmid) =
          some rrow ∧ rrow.doi = c.doi := by
    intro c hcf
    cases hget : alistGet c.pmid (buildMap (load_existing_data_for_source st name)) with
    | none =>
      have hcn : isNewCand (buildMap (load_existing_data_for_source st name)) c
          = true := by simp [isNewCand, hget]
      have hcmem : c ∈ feed.filter (fun c =>
          isNewCand (buildMap (load_existing_data_for_source st name)) c) :=
        List.mem_filter.mpr ⟨hcf, hcn⟩
      have hpmem : (c.pmid, c.doi) ∈ newE.map (fun e => (e.pmid, e.doi)) := by
        rw [h1p]
        exact List.mem_map_of_mem _ hcmem
      obtain ⟨e', he', hpe⟩ := List.mem_map.mp hpmem
      have hpm' : e'.pmid = c.pmid := congrArg Prod.fst hpe
      have hdoi' : e'.doi = c.doi := congrArg Prod.snd hpe
      have he'' : e' ∈ newE ++ resolvedUpdates (classOut w st name feed) :=
        List.mem_append_left _ he'
      obtain ⟨hne, hall⟩ := selectKey_save_covered hsf
        (newE ++ resolvedUpdates (classOut w st name feed)) st hndall e' he''
      rw [hpm'] at hne hall
      obtain ⟨rrow, hlast, hmem⟩ := lastElem_mem _ hne
      exact ⟨rrow, hlast, (hall rrow hmem).trans hdoi'⟩
    | some ex =>
      by_cases hd : ex.doi ≠ c.doi
      · have hcu : needUpd (buildMap (load_existing_data_for_source st name)) c
            = true := by simp [needUpd, hget, hd]
        have hcmem : c ∈ feed.filter (fun c =>
            needUpd (buildMap (load_existing_data_for_source st name)) c) :=
          List.mem_filter.mpr ⟨hcf, hcu⟩
        obtain ⟨ex0, hget0, _, hfinal⟩ := hresval c hcf hcu
        have hemem : (alistGet c.pmid (classOut w st name feed).existing).getD default
            ∈ resolvedUpdates (classOut w st name feed) := by
          rw [hres]
          exact List.mem_map_of_mem _ hcmem
        have he'val : (alistGet c.pmid (classOut w st name feed).existing).getD default
            = { ex0 with doi := c.doi } := by
          rw [hfinal]
          rfl
        have he'' : (alistGet c.pmid (classOut w st name feed).existing).getD default
            ∈ newE ++ resolvedUpdates (classOut w st name feed) :=
          List.mem_append_right _ hemem
        obtain ⟨hne, hall⟩ := selectKey_save_covered hsf
          (newE ++ resolvedUpdates (classOut w st name feed)) st hndall _ he''
        have hpm' : ((alistGet c.pmid (classOut w st name feed).existing).getD
            default).pmid = c.pmid := by
          rw [he'val]
          show ex0.pmid = c.pmid
          exact hwf c.pmid ex0 hget0
        have hdoi' : ((alistGet c.pmid (classOut w st name feed).existing).getD
            default).doi = c.doi := by
          rw [he'val]
        rw [hpm'] at hne hall
        obtain ⟨rrow, hlast, hmem⟩ := lastElem_mem _ hne
        exact ⟨rrow, hlast, (hall rrow hmem).trans hdoi'⟩
      · have heq : ex.doi = c.doi := not_not.mp hd
        have hnotin : ∀ e' ∈ newE ++ resolvedUpdates (classOut w st name feed),
            e'.pmid ≠ c.pmid := by
          intro e' he' hEq
          rcases List.mem_append.mp he' with hl | hr2
          · have hpmem : e'.pmid ∈ newE.map (fun e => e.pmid) :=
              List.mem_map_of_mem _ hl
            rw [hnewpm] at hpmem
            obtain ⟨c1, hc1mem, hc1⟩ := List.mem_map.mp hpmem
            obtain ⟨hc1f, hc1n⟩ := List.mem_filter.mp hc1mem
            have hceq : c1 = c :=
              List.inj_on_of_nodup_map hnd hc1f hcf (by rw [hc1, hEq])
            rw [hceq] at hc1n
            unfold isNewCand at hc1n
            rw [hget] at hc1n
            simp at hc1n
          · have hpmem : e'.pmid ∈ (resolvedUpdates
                (classOut w st name feed)).map (fun e => e.pmid) :=
              List.mem_map_of_mem _ hr2
            rw [hrespm] at hpmem
            obtain ⟨c1, hc1mem, hc1⟩ := List.mem_map.mp hpmem
            obtain ⟨hc1f, hc1n⟩ := List.mem_filter.mp hc1mem
            have hceq : c1 = c :=
              List.inj_on_of_nodup_map hnd hc1f hcf (by rw [hc1, hEq])
            rw [hceq] at hc1n
            unfold needUpd at hc1n
            rw [hget] at hc1n
            have : ex.doi ≠ c.doi := of_decide_eq_true hc1n
            exact this heq
        have hsel : selectKey (save_rss_data w cfg.embedding_strategy name
            (newE ++ resolvedUpdates (classOut w st name feed)) st) name c.pmid =
            selectKey st name c.pmid :=
          selectKey_save_other _ st c.pmid hnotin
        have hchain := alistGet_buildMap_load st name c.pmid
        rw [hget] at hchain
        cases hl : lastElem (selectKey st name c.pmid) with
        | none =>
          rw [hl] at hchain
          exact absurd hchain (by simp)
        | some rrow =>
          rw [hl] at hchain
          simp only [Option.map_some'] at hchain
          injection hchain with hex
          refine ⟨rrow, by rw [hsel]; exact hl, ?_⟩
          have hd2 : rrow.doi = ex.doi := by
            rw [hex]
            rfl
          rw [hd2]
          exact heq
  have hm2 : ∀ c ∈ feed, ∃ ex2,
      alistGet c.pmid (buildMap (load_existing_data_for_source
        (save_rss_data w cfg.embedding_strategy name
          (newE ++ resolvedUpdates (classOut w st name feed)) st) name)) =
        some ex2 ∧ ex2.doi = c.doi := by
    intro c hcf
    obtain ⟨rrow, hlast, hdoi⟩ := hkey c hcf
    refine ⟨rowToEntry rrow, ?_, hdoi⟩
    rw [alistGet_buildMap_load, hlast]
    rfl
  rw [hstore]
  have hclass2 : classOut w (save_rss_data w cfg.embedding_strategy name
      (newE ++ resolvedUpdates (classOut w st name feed)) st) name feed =
      ⟨buildMap (load_existing_data_for_source
        (save_rss_data w cfg.embedding_strategy name
          (newE ++ resolvedUpdates (classOut w st name feed)) st) name), [], []⟩ := by
    unfold classOut
    exact fold_unchanged feed _ (fun c hcf => hm2 c hcf)
  unfold processSourceCore
  rw [hclass2]
  rfl

/-- C1 witness: a concrete fault-free source with two distinct-pmid
candidates; the second run returns the first run's store with zero inserts,
zero updates and no embedding call. -/
theorem C1_amended_idempotence_witness :
    ∃ r1, processSource (mkWorld [entry111, entry222]) {} [] "S" "u" =
        Except.ok r1 ∧
      processSource (mkWorld [entry111, entry222]) {} r1.store "S" "u" =
        Except.ok ⟨r1.store, 0, 0, []⟩ := by
  obtain ⟨r1, hr1⟩ : ∃ r1,
      processSource (mkWorld [entry111, entry222]) {} [] "S" "u" = Except.ok r1 :=
    ⟨_, rfl⟩
  exact ⟨r1, hr1,
    C1_amended_idempotence (mkWorld [entry111, entry222]) {} [] "S" "u"
      [entry111, entry222] r1 rfl rfl (fun _ => rfl) (by decide) hr1⟩

/-- C1 counterexample: with a feed containing two candidates sharing one
pmid but carrying different dois, the second run of the cycle emits two
DOI-UPDATEs instead of the zero updates the claim requires (the stored state
does remain equal). -/
theorem C1_counterexample :
    dupA.pmid = dupB.pmid ∧
    ((processSource (mkWorld [dupA, dupB]) {} [] "S" "u").toOption.map
      (fun r1 => ((processSource (mkWorld [dupA, dupB]) {} r1.store "S" "u").toOption.map
        (fun r2 => (r2.numNew, r2.numUpdated, decide (r2.store = r1.store)))))) =
      some (some (0, 2, true)) :=
  ⟨rfl, by decide⟩

end RssProcessor
